import Mathlib

/-!
Verification development for the MICE imputation engine
(fancyimpute, src/fancyimpute/MICE.py).

The Python source is shallowly embedded over exact rationals.  Matrices are
row-major lists of lists; the missing mask is a list of Bool rows.  All
randomness (np.random.choice, np.random.normal) and the external regression
model (fit / predict / predict_dist) are passed in as explicit oracle
functions, and the floating-point square root used inside np.corrcoef is an
oracle constrained by `sd j * sd j = variance of column j`.  Fallible numpy
operations that raise are embedded in `Except String`.
-/

namespace MICE

/-- Working matrix: row-major list of rows of rationals. -/
abbrev Mat := List (List ℚ)

/-- Input matrix with NaN sentinels: `none` marks a missing cell. -/
abbrev OMat := List (List (Option ℚ))

/-- Missing mask: `true` marks a missing cell. -/
abbrev Mask := List (List Bool)

/-- Entry of a rational matrix, with 0 as the out-of-range default. -/
def entry (X : Mat) (r c : ℕ) : ℚ := (X.getD r []).getD c 0

/-- Entry of an Option-valued matrix, `none` out of range. -/
def entryO (X : OMat) (r c : ℕ) : Option ℚ := (X.getD r []).getD c none

/-- Mask lookup; cells outside the mask count as observed (false). -/
def maskAt (m : Mask) (r c : ℕ) : Bool := (m.getD r []).getD c false

/-- Shape agreement between a matrix and a mask (same rows, same row widths). -/
def Aligned (X : Mat) (m : Mask) : Prop :=
  X.length = m.length ∧ ∀ i, i < m.length → (X.getD i []).length = (m.getD i []).length

instance (X : Mat) (m : Mask) : Decidable (Aligned X m) := by
  unfold Aligned; exact instDecidableAnd

/- Small getD / set helpers shared by all later lemmas. -/

theorem getD_set_self {α} (l : List α) (i : ℕ) (a d : α) (h : i < l.length) :
    (l.set i a).getD i d = a := by
  induction l generalizing i with
  | nil => simp at h
  | cons x xs ih =>
    cases i with
    | zero => simp [List.set]
    | succ n =>
      simp only [List.set, List.getD_cons_succ]
      exact ih n (by simpa using h)

theorem getD_set_ne {α} (l : List α) {i j : ℕ} (a d : α) (h : i ≠ j) :
    (l.set i a).getD j d = l.getD j d := by
  induction l generalizing i j with
  | nil => simp [List.set]
  | cons x xs ih =>
    cases i with
    | zero =>
      cases j with
      | zero => exact absurd rfl h
      | succ m => simp [List.set]
    | succ n =>
      cases j with
      | zero => simp [List.set]
      | succ m =>
        simp only [List.set, List.getD_cons_succ]
        exact ih (fun hnm => h (by rw [hnm]))

theorem length_set {α} (l : List α) (i : ℕ) (a : α) : (l.set i a).length = l.length :=
  List.length_set l i a

theorem getD_mem {α} (l : List α) (i : ℕ) (d : α) (h : i < l.length) : l.getD i d ∈ l := by
  rw [List.getD_eq_getElem?_getD, List.getElem?_eq_getElem h]
  exact List.getElem_mem h

theorem getD_true_lt (l : List Bool) (i : ℕ) (h : l.getD i false = true) : i < l.length := by
  by_contra hc
  rw [List.getD_eq_getElem?_getD, List.getElem?_eq_none (Nat.le_of_not_lt hc)] at h
  simp at h

theorem headD_drop {α} (l : List α) (t : ℕ) (d : α) : (l.drop t).headD d = l.getD t d := by
  induction l generalizing t with
  | nil => simp
  | cons x xs ih =>
    cases t with
    | zero => simp
    | succ n => simp [ih n]

/- Column statistics of the mask, mirroring missing_mask.sum(axis=0) and the
   row index sets used by the per-column updates. -/

/-- Row indices (ascending) where column c is missing. -/
def missRows (m : Mask) (c : ℕ) : List ℕ :=
  (List.range m.length).filter (fun r => maskAt m r c)

/-- Row indices (ascending) where column c is observed. -/
def obsRows (m : Mask) (c : ℕ) : List ℕ :=
  (List.range m.length).filter (fun r => !maskAt m r c)

/-- Number of missing entries of column c (missing_mask.sum(axis=0)[c]). -/
def countMissingIn (m : Mask) (c : ℕ) : ℕ := (missRows m c).length

/-- Observed values of column c, in ascending row order
(X_filled[observed_row_mask_for_col, col_idx]). -/
def observedCol (X : Mat) (m : Mask) (c : ℕ) : List ℚ :=
  (obsRows m c).map (fun r => entry X r c)

/- The argsort model.  np.argsort returns an index order sorting the keys
   ascending.  Its default quicksort runs a plain insertion sort on arrays of
   at most 16 elements, where it coincides exactly with the stable
   List.insertionSort over the lexicographic (key, index) order used here;
   for longer arrays the introsort partitioning can reorder tied keys, so
   only realization-independent properties (permutation of the indices,
   non-decreasing keys) may be read off this model there, and any statement
   about tie order must be restricted to the insertion-sort regime. -/

/-- Total order on indices: by key, ties broken by ascending index. -/
def keyLe {α} [LinearOrder α] (key : ℕ → α) (i j : ℕ) : Prop :=
  key i < key j ∨ (key i = key j ∧ i ≤ j)

instance {α} [LinearOrder α] (key : ℕ → α) : DecidableRel (keyLe key) := by
  intro i j; unfold keyLe; exact instDecidableOr

theorem keyLe_total {α} [LinearOrder α] (key : ℕ → α) : ∀ i j, keyLe key i j ∨ keyLe key j i := by
  intro i j
  rcases lt_trichotomy (key i) (key j) with h | h | h
  · exact Or.inl (Or.inl h)
  · rcases Nat.le_total i j with hij | hij
    · exact Or.inl (Or.inr ⟨h, hij⟩)
    · exact Or.inr (Or.inr ⟨h.symm, hij⟩)
  · exact Or.inr (Or.inl h)

theorem keyLe_trans {α} [LinearOrder α] (key : ℕ → α) :
    ∀ i j k, keyLe key i j → keyLe key j k → keyLe key i k := by
  intro i j k hij hjk
  rcases hij with h1 | ⟨h1, h1i⟩
  · rcases hjk with h2 | ⟨h2, _⟩
    · exact Or.inl (h1.trans h2)
    · exact Or.inl (h2 ▸ h1)
  · rcases hjk with h2 | ⟨h2, h2i⟩
    · exact Or.inl (h1 ▸ h2)
    · exact Or.inr ⟨h1.trans h2, h1i.trans h2i⟩

/-- Model of np.argsort over the keys of indices 0..n-1 (stable, ascending). -/
def argsortAsc {α} [LinearOrder α] (key : ℕ → α) (n : ℕ) : List ℕ :=
  List.insertionSort (keyLe key) (List.range n)

theorem argsortAsc_perm {α} [LinearOrder α] (key : ℕ → α) (n : ℕ) :
    (argsortAsc key n).Perm (List.range n) :=
  List.perm_insertionSort _ _

theorem argsortAsc_sorted {α} [LinearOrder α] (key : ℕ → α) (n : ℕ) :
    (argsortAsc key n).Pairwise (keyLe key) := by
  have := @List.sorted_insertionSort ℕ (keyLe key) _
    ⟨keyLe_total key⟩ ⟨fun _ _ _ => keyLe_trans key _ _ _⟩ (List.range n)
  exact this

/- The visit-order planner (get_visit_indices). -/

/-- Embeds MICE.get_visit_indices: decide the column update order from the
missing mask; unknown strings raise the ValueError of the source. -/
def getVisitIndices (visitSeq : String) (m : Mask) : Except String (List ℕ) :=
  let nCols := (m.headD []).length
  if visitSeq = "roman" then .ok (List.range nCols)
  else if visitSeq = "arabic" then .ok (List.range nCols).reverse
  else if visitSeq = "monotone" then .ok (argsortAsc (fun c => countMissingIn m c) nCols).reverse
  else if visitSeq = "revmonotone" then .ok (argsortAsc (fun c => countMissingIn m c) nCols)
  else .error ("Invalid choice for visit order: " ++ visitSeq)

/- Writing a column of new values into the missing cells, embedding the numpy
   fancy assignment X_filled[missing_mask_col, col_idx] = values.  The t-th
   missing row (in ascending row order) receives the t-th value. -/

/-- Embeds X_filled[missing_mask_col, c] = vals: walk rows and mask rows in
step, consuming one value per missing row of column c. -/
def writeColAux (c : ℕ) : Mat → Mask → List ℚ → Mat
  | [], _, _ => []
  | row :: rows, [], _ => row :: rows
  | row :: rows, mrow :: mrows, vals =>
    if mrow.getD c false then
      row.set c (vals.headD (row.getD c 0)) :: writeColAux c rows mrows vals.tail
    else row :: writeColAux c rows mrows vals

/-- Number of missing rows of column c strictly before row r. -/
def missBefore (c : ℕ) : Mask → ℕ → ℕ
  | _, 0 => 0
  | [], _ + 1 => 0
  | mrow :: mrows, r + 1 => (if mrow.getD c false then 1 else 0) + missBefore c mrows r

/-- Embeds np.random.choice(obs, n): n independent uniform draws from obs,
realized by an arbitrary index stream reduced into range. -/
def randomDraw (obs : List ℚ) (n : ℕ) (pick : ℕ → ℕ) : List ℚ :=
  (List.range n).map (fun t => obs.getD (pick t % obs.length) 0)

/-- Embeds MICE.initialize: per visited column with missing entries, overwrite
the missing cells with draws from the currently observed entries of that
column. -/
def initFill (X : Mat) (m : Mask) (visit : List ℕ) (picks : ℕ → ℕ → ℕ) : Mat :=
  visit.foldl (fun acc c =>
    if 0 < countMissingIn m c then
      writeColAux c acc m (randomDraw (observedCol acc m c) (countMissingIn m c) (picks c))
    else acc) X

/- The correlation weights of the predictor-subsetting path.  np.corrcoef
   divides the covariance matrix entries by the outer product of the column
   standard deviations; a zero-variance column yields 0/0 = NaN.  We keep
   exact centered product sums (the 1/(n-1) normalization of np.cov cancels
   in the correlation quotient) and take the square root as an oracle `sd`
   constrained by sd j * sd j = covSum X j j.  NaN is modeled as `none`. -/

/-- Values of column c over all rows (X_filled[:, c]). -/
def colVals (X : Mat) (c : ℕ) : List ℚ := X.map (fun row => row.getD c 0)

/-- Mean of column c. -/
def colMean (X : Mat) (c : ℕ) : ℚ := (colVals X c).sum / (X.length : ℚ)

/-- Centered product sum of columns i and j; covSum X j j = 0 iff column j has
zero variance. -/
def covSum (X : Mat) (i j : ℕ) : ℚ :=
  ((List.range X.length).map
    (fun r => (entry X r i - colMean X i) * (entry X r j - colMean X j))).sum

/-- NaN-propagating addition of float values. -/
def nanAdd : Option ℚ → Option ℚ → Option ℚ
  | some a, some b => some (a + b)
  | _, _ => none

/-- NaN-propagating division; division by zero gives NaN.  In the correlation
pipeline the numerator is bounded by the denominator (Cauchy-Schwarz), so a
zero denominator always means the 0/0 = NaN case of the floats. -/
def nanDiv : Option ℚ → Option ℚ → Option ℚ
  | some a, some b => if b = 0 then none else some (a / b)
  | _, _ => none

/-- Absolute correlation entry |corrcoef(X.T)[i, j]| with NaN as `none`. -/
def absCorr (sd : ℕ → ℚ) (X : Mat) (i j : ℕ) : Option ℚ :=
  nanDiv (some |covSum X i j|) (some (sd i * sd j))

/-- Embeds p / p.sum() over float weights: NaN anywhere poisons the sum and
hence every normalized entry; an all-zero weight row also degenerates to NaN. -/
def normalizeNaN (p : List (Option ℚ)) : List (Option ℚ) :=
  let s := p.foldl nanAdd (some 0)
  p.map (fun x => nanDiv x s)

/-- Candidate predictor columns: all columns except c, ascending
(list(range(0, c)) + list(range(c + 1, n_cols))). -/
def allOtherCols (nCols c : ℕ) : List ℕ :=
  List.range c ++ List.range' (c + 1) (nCols - (c + 1))

/-- int(self.add_ones). -/
def addOnesInt (b : Bool) : ℕ := if b then 1 else 0

/-- Guard of the predictor-subsetting path:
n_cols - int(add_ones) > n_nearest_columns. -/
def subsetActive (addOnes : Bool) (nNearest nCols : ℕ) : Bool :=
  decide (nNearest < nCols - addOnesInt addOnes)

/-- Weight vector handed to np.random.choice for column c: the absolute
correlation row restricted to the candidate columns, with the trailing bias
entry dropped when add_ones is set, then normalized by its own sum. -/
def subsetWeights (sd : ℕ → ℚ) (X : Mat) (c nCols : ℕ) (addOnes : Bool) : List (Option ℚ) :=
  let p := (allOtherCols nCols c).map (fun j => absCorr sd X c j)
  if addOnes then normalizeNaN p.dropLast else normalizeNaN p

/-- Embeds the other_cols computation of perform_imputation_round, including
the final other_cols = np.append(other_cols, other_cols[:-1]) of the add_ones
branch exactly as written in the source. -/
def selectedCols (addOnes : Bool) (nNearest : ℕ) (sd : ℕ → ℚ)
    (colChoice : List ℕ → ℕ → List (Option ℚ) → List ℕ) (X : Mat) (nCols c : ℕ) : List ℕ :=
  let other := allOtherCols nCols c
  if subsetActive addOnes nNearest nCols then
    if addOnes then
      let sampled := colChoice other.dropLast nNearest (subsetWeights sd X c nCols addOnes)
      sampled ++ sampled.dropLast
    else colChoice other nNearest (subsetWeights sd X c nCols addOnes)
  else other

/-- Configuration fields of the MICE constructor used by the core loop. -/
structure Cfg where
  visitSeq : String
  nImputations : ℕ
  nBurnIn : ℕ
  nPmm : ℕ
  imputeType : String
  addOnes : Bool
  nNearest : ℕ

/-- Oracles for every effect the source consumes: the float square root of
np.corrcoef, np.random.choice over columns, the regression collaborator
(fit folded into predict and predict_dist), the uniform neighbor pick of PMM,
and np.random.normal. -/
structure Oracle where
  sd : ℕ → ℚ
  colChoice : List ℕ → ℕ → List (Option ℚ) → List ℕ
  predict : Mat → List ℚ → Mat → Bool → List ℚ
  predictDist : Mat → List ℚ → Mat → List (ℚ × ℚ)
  nnPick : ℕ → ℕ → ℕ
  normal : ℕ → ℕ → ℚ × ℚ → ℚ

/-- Embeds X[np.ix_(rows, cols)]. -/
def subMat (X : Mat) (rows cols : List ℕ) : Mat :=
  rows.map (fun r => cols.map (fun c => entry X r c))

/-- Distance of missing-row prediction t to observed-row prediction j. -/
def pmmKey (predsM predsO : List ℚ) (t j : ℕ) : ℚ :=
  |predsM.getD t 0 - predsO.getD j 0|

/-- Model of np.argpartition(D, k)[:, :k]: an index set of k distance-minimal
observed rows (realized by the stable ascending argsort). -/
def pmmNN (key : ℕ → ℚ) (nObs k : ℕ) : List ℕ :=
  (argsortAsc key nObs).take k

/-- Predictor columns used for the fit of column c
(other_cols after the optional subsetting, computed from the round-start
matrix Xcorr). -/
def fitCols (cfg : Cfg) (oc : Oracle) (nCols : ℕ) (Xcorr : Mat) (c : ℕ) : List ℕ :=
  selectedCols cfg.addOnes cfg.nNearest oc.sd oc.colChoice Xcorr nCols c

/-- Stochastic predictions for the missing rows of column c
(brr.predict(X_missing, random_draw=True) after the fit). -/
def predsMiss (cfg : Cfg) (oc : Oracle) (m : Mask) (nCols : ℕ) (Xcorr X : Mat) (c : ℕ) :
    List ℚ :=
  oc.predict (subMat X (obsRows m c) (fitCols cfg oc nCols Xcorr c)) (observedCol X m c)
    (subMat X (missRows m c) (fitCols cfg oc nCols Xcorr c)) true

/-- Deterministic predictions for the observed rows of column c
(brr.predict(X_observed, random_draw=False) after the fit). -/
def predsObs (cfg : Cfg) (oc : Oracle) (m : Mask) (nCols : ℕ) (Xcorr X : Mat) (c : ℕ) :
    List ℚ :=
  oc.predict (subMat X (obsRows m c) (fitCols cfg oc nCols Xcorr c)) (observedCol X m c)
    (subMat X (obsRows m c) (fitCols cfg oc nCols Xcorr c)) false

/-- Neighbor count k = np.minimum(n_pmm_neighbors, len(col_preds_observed) - 1). -/
def pmmK (cfg : Cfg) (oc : Oracle) (m : Mask) (nCols : ℕ) (Xcorr X : Mat) (c : ℕ) : ℕ :=
  min cfg.nPmm ((predsObs cfg oc m nCols Xcorr X c).length - 1)

/-- Replacement values of the PMM branch: for the t-th missing row, one of the
k distance-closest observed rows is drawn and the observed value of column c
in that row is copied. -/
def pmmNewVals (cfg : Cfg) (oc : Oracle) (m : Mask) (nCols : ℕ) (Xcorr X : Mat) (c : ℕ) :
    List ℚ :=
  (List.range (missRows m c).length).map (fun t =>
    let nn := pmmNN (pmmKey (predsMiss cfg oc m nCols Xcorr X c) (predsObs cfg oc m nCols Xcorr X c) t)
      (predsObs cfg oc m nCols Xcorr X c).length (pmmK cfg oc m nCols Xcorr X c)
    (observedCol X m c).getD (nn.getD (oc.nnPick c t % nn.length) 0) 0)

/-- Replacement values of the col branch: per-row posterior predictive draws
np.random.normal(mus, np.sqrt(sigmas_squared)). -/
def colNewVals (cfg : Cfg) (oc : Oracle) (m : Mask) (nCols : ℕ) (Xcorr X : Mat) (c : ℕ) :
    List ℚ :=
  (List.range (missRows m c).length).map (fun t =>
    oc.normal c t
      ((oc.predictDist (subMat X (obsRows m c) (fitCols cfg oc nCols Xcorr c))
          (observedCol X m c)
          (subMat X (missRows m c) (fitCols cfg oc nCols Xcorr c))).getD t (0, 0)))

/-- Embeds the body of the visit loop of perform_imputation_round for one
column c: Xcorr is the round-start matrix feeding the (round-level)
correlation matrix, X the current filled matrix.  The error value embeds the
np.random.choice failure on an empty PMM neighbor row. -/
def imputeColumn (cfg : Cfg) (oc : Oracle) (m : Mask) (nCols : ℕ) (Xcorr X : Mat) (c : ℕ) :
    Except String Mat :=
  if countMissingIn m c = 0 then .ok X
  else if cfg.imputeType = "pmm" then
    if pmmK cfg oc m nCols Xcorr X c = 0 then .error "a must be non-empty"
    else .ok (writeColAux c X m (pmmNewVals cfg oc m nCols Xcorr X c))
  else if cfg.imputeType = "col" then
    .ok (writeColAux c X m (colNewVals cfg oc m nCols Xcorr X c))
  else .ok X

/-- Embeds MICE.perform_imputation_round: one pass over the visit order.  The
correlation source matrix is fixed at the round start, matching the single
np.corrcoef call before the column loop. -/
def performImputationRound (cfg : Cfg) (oc : Oracle) (m : Mask) (visit : List ℕ) (X : Mat) :
    Except String Mat :=
  let nCols := (X.headD []).length
  visit.foldlM (fun acc c => imputeColumn cfg oc m nCols X acc c) X

/-- Missing mask np.isnan(X) of the sentinel-valued input. -/
def missingMaskOf (Xin : OMat) : Mask := Xin.map (fun row => row.map (fun v => v.isNone))

/-- Numeric payload of the input; missing cells carry an inert placeholder
that the initializer overwrites before any read. -/
def stripNaN (Xin : OMat) : Mat := Xin.map (fun row => row.map (fun v => v.getD 0))

/-- np.column_stack((X, np.ones(n_rows))). -/
def addOnesCol (X : Mat) : Mat := X.map (fun row => row ++ [1])

/-- np.column_stack([missing_mask, np.zeros(n_rows)]). -/
def addMaskCol (m : Mask) : Mask := m.map (fun row => row ++ [false])

/-- Embeds X_filled[missing_mask]: row-major flattening of the masked cells. -/
def maskedEntries (X : Mat) (m : Mask) : List ℚ :=
  (X.zip m).foldr
    (fun rm acc =>
      ((rm.1.zip rm.2).filterMap (fun vb => if vb.2 then some vb.1 else none)) ++ acc) []

/-- Embeds the imputation loop of multiple_imputations: run the listed rounds
in order, collecting the masked entries of every post-burn-in round. -/
def runRounds (cfg : Cfg) (ors : ℕ → Oracle) (m : Mask) (visit : List ℕ) :
    List ℕ → Mat → List (List ℚ) → Except String (List (List ℚ) × Mat)
  | [], X, acc => .ok (acc, X)
  | r :: rs, X, acc =>
    match performImputationRound cfg (ors r) m visit X with
    | .error e => .error e
    | .ok X2 =>
      runRounds cfg ors m visit rs X2
        (if cfg.nBurnIn ≤ r then acc ++ [maskedEntries X2 m] else acc)

/-- Embeds MICE.multiple_imputations: derive the mask, plan the visit order,
optionally append the bias column, seed with the initializer, iterate
burn-in + imputation rounds, and return the collected samples together with
the mask restricted back to the original shape. -/
def multipleImputations (cfg : Cfg) (ors : ℕ → Oracle) (initPicks : ℕ → ℕ → ℕ) (Xin : OMat) :
    Except String (List (List ℚ) × Mask) :=
  let mask := missingMaskOf Xin
  match getVisitIndices cfg.visitSeq mask with
  | .error e => .error e
  | .ok visit =>
    let X0 := stripNaN Xin
    let X1 := if cfg.addOnes then addOnesCol X0 else X0
    let mask1 := if cfg.addOnes then addMaskCol mask else mask
    let Xf := initFill X1 mask1 visit initPicks
    match runRounds cfg ors mask1 visit (List.range (cfg.nBurnIn + cfg.nImputations)) Xf [] with
    | .error e => .error e
    | .ok res =>
      let maskOut := if cfg.addOnes then mask1.map List.dropLast else mask1
      .ok (res.1, maskOut)

/-- Total number of true cells of a mask. -/
def countTrues (m : Mask) : ℕ := (m.map (fun row => row.count true)).sum

/-- Embeds imputed_arrays.mean(axis=0): the mean of zero samples is the float
NaN, which numpy broadcasts over every missing position. -/
def meanAxis0 (results : List (List ℚ)) (len : ℕ) : List (Option ℚ) :=
  match results with
  | [] => List.replicate len none
  | _ =>
    (List.range len).map
      (fun i => some (((results.map (fun s => s.getD i 0)).sum) / (results.length : ℚ)))

/-- Writes the next values of vals into the masked cells of one row, returning
the rewritten row and the unconsumed values. -/
def writeRowMasked : List (Option ℚ) → List Bool → List (Option ℚ) →
    List (Option ℚ) × List (Option ℚ)
  | [], _, vals => ([], vals)
  | x :: xs, [], vals => (x :: xs, vals)
  | x :: xs, b :: bs, vals =>
    if b then
      let rest := writeRowMasked xs bs vals.tail
      (vals.headD none :: rest.1, rest.2)
    else
      let rest := writeRowMasked xs bs vals
      (x :: rest.1, rest.2)

/-- Embeds X_completed[missing_mask] = values over the sentinel-valued copy of
the original input. -/
def writeMaskedRows : OMat → Mask → List (Option ℚ) → OMat
  | [], _, _ => []
  | row :: rows, [], _ => row :: rows
  | row :: rows, mrow :: mrows, vals =>
    let p := writeRowMasked row mrow vals
    p.1 :: writeMaskedRows rows mrows p.2

/-- Embeds MICE.complete: average the collected samples per missing position
and write the averages into a copy of the original input. -/
def complete (cfg : Cfg) (ors : ℕ → Oracle) (initPicks : ℕ → ℕ → ℕ) (Xin : OMat) :
    Except String OMat :=
  match multipleImputations cfg ors initPicks Xin with
  | .error e => .error e
  | .ok res => .ok (writeMaskedRows Xin res.2 (meanAxis0 res.1 (countTrues res.2)))

/- Claim C4: visit-order planner. -/

/-- C4 counterexample: with two columns of equal missing count, the monotone
order is [1, 0]: argsort ascends stably and the source reverses it, so equal
count columns appear in descending index order, not the ascending order the
claim states. -/
theorem C4_monotone_ties_counterexample :
    getVisitIndices "monotone" [[true, true]] = .ok [1, 0] ∧ ([1, 0] : List ℕ) ≠ [0, 1] :=
  ⟨rfl, by decide⟩

/-- C4 (amended): roman is 0..n-1 and arabic its exact reverse; monotone is
the exact reverse of revmonotone (the source reverses the same argsort of the
per-column missing counts), and revmonotone is a permutation of the columns
with non-decreasing missing counts — properties every np.argsort realization
satisfies.  The tie order among equal counts is not pinned down by the
program in general (the default quicksort argsort is unstable beyond 16
elements); in the insertion-sort regime of at most 16 columns, where numpy
argsort is exactly the stable sort modeled here, revmonotone ties keep
ascending index order, so monotone ties come out in descending index order —
not the ascending order the claim states (see the counterexample).  Any
other visit_sequence value fails with the ValueError naming the offending
value. -/
theorem C4_visit_order_amended (m : Mask) :
    getVisitIndices "roman" m = .ok (List.range (m.headD []).length) ∧
    getVisitIndices "arabic" m = .ok (List.range (m.headD []).length).reverse ∧
    (∃ l, getVisitIndices "revmonotone" m = .ok l ∧
      getVisitIndices "monotone" m = .ok l.reverse ∧
      l.Perm (List.range (m.headD []).length) ∧
      l.Pairwise (fun a b => countMissingIn m a ≤ countMissingIn m b) ∧
      ((m.headD []).length ≤ 16 →
        l.Pairwise (fun a b => countMissingIn m a < countMissingIn m b ∨
          (countMissingIn m a = countMissingIn m b ∧ a < b)))) ∧
    ∀ vs : String, vs ≠ "roman" → vs ≠ "arabic" → vs ≠ "monotone" → vs ≠ "revmonotone" →
      getVisitIndices vs m = .error ("Invalid choice for visit order: " ++ vs) := by
  refine ⟨rfl, rfl, ?_, ?_⟩
  · refine ⟨argsortAsc (fun c => countMissingIn m c) (m.headD []).length, rfl, rfl, ?_, ?_, ?_⟩
    · exact argsortAsc_perm _ _
    · refine (argsortAsc_sorted (fun c => countMissingIn m c) (m.headD []).length).imp ?_
      rintro a b hab
      rcases hab with h | ⟨h, _⟩
      · exact le_of_lt h
      · exact le_of_eq h
    · intro _
      have hnd : (argsortAsc (fun c => countMissingIn m c) (m.headD []).length).Nodup :=
        (argsortAsc_perm _ _).symm.nodup (List.nodup_range _)
      have hs := argsortAsc_sorted (fun c => countMissingIn m c) (m.headD []).length
      have := hs.and hnd
      refine this.imp ?_
      rintro a b ⟨hab, hne⟩
      rcases hab with h | ⟨h, hle⟩
      · exact Or.inl h
      · exact Or.inr ⟨h, lt_of_le_of_ne hle hne⟩
  · intro vs h1 h2 h3 h4
    simp [getVisitIndices, h1, h2, h3, h4]

/-- C4 witness: the amended theorem applied at a concrete two-column mask
(inside the insertion-sort regime, so the tie-order conjunct fires) and at a
concrete invalid visit_sequence value. -/
theorem C4_visit_order_witness :
    getVisitIndices "roman" [[true, true]] = .ok (List.range 2) ∧
    getVisitIndices "foo" [[true, true]] =
      .error ("Invalid choice for visit order: " ++ "foo") ∧
    ∃ l, getVisitIndices "revmonotone" [[true, true]] = .ok l ∧
      l.Pairwise (fun a b =>
        countMissingIn [[true, true]] a < countMissingIn [[true, true]] b ∨
        (countMissingIn [[true, true]] a = countMissingIn [[true, true]] b ∧ a < b)) := by
  refine ⟨(C4_visit_order_amended [[true, true]]).1,
    (C4_visit_order_amended [[true, true]]).2.2.2 "foo" (by decide) (by decide) (by decide)
      (by decide), ?_⟩
  obtain ⟨l, hrev, hmono, hperm, hle, hstrict⟩ := (C4_visit_order_amended [[true, true]]).2.2.1
  exact ⟨l, hrev, hstrict (by decide)⟩

/- Claims C3, C1 and C5: the predictor-subsetting path. -/

theorem mem_allOtherCols {nCols c j : ℕ} (hne : j ≠ c) (hlt : j < nCols) :
    j ∈ allOtherCols nCols c := by
  unfold allOtherCols
  rcases Nat.lt_or_ge j c with h | h
  · exact List.mem_append.mpr (Or.inl (List.mem_range.mpr h))
  · have hcj : c < j := lt_of_le_of_ne h (Ne.symm hne)
    refine List.mem_append.mpr (Or.inr ?_)
    rw [List.mem_range']
    exact ⟨j - (c + 1), by omega, by omega⟩

theorem dropLast_allOtherCols {nCols c : ℕ} (hc : c < nCols - 1) :
    (allOtherCols nCols c).dropLast = allOtherCols (nCols - 1) c := by
  unfold allOtherCols
  have h1 : nCols - (c + 1) = ((nCols - 1) - (c + 1)) + 1 := by omega
  rw [h1, List.range'_1_concat, ← List.append_assoc, List.dropLast_concat]

theorem nanAdd_none_left (x : Option ℚ) : nanAdd none x = none := by cases x <;> rfl

theorem nanAdd_none_right (x : Option ℚ) : nanAdd x none = none := by cases x <;> rfl

theorem nanDiv_none_right (x : Option ℚ) : nanDiv x none = none := by cases x <;> rfl

theorem foldl_nanAdd_none (l : List (Option ℚ)) : l.foldl nanAdd none = none := by
  induction l with
  | nil => rfl
  | cons x l ih => rw [List.foldl_cons, nanAdd_none_left, ih]

theorem foldl_nanAdd_of_mem_none (l : List (Option ℚ)) (h : none ∈ l) :
    ∀ a, l.foldl nanAdd a = none := by
  induction l with
  | nil => simp at h
  | cons x l ih =>
    intro a
    rcases List.mem_cons.mp h with hx | hl
    · rw [List.foldl_cons, ← hx, nanAdd_none_right, foldl_nanAdd_none]
    · rw [List.foldl_cons]; exact ih hl _

theorem normalizeNaN_all_none (p : List (Option ℚ)) (h : none ∈ p) :
    ∀ w ∈ normalizeNaN p, w = none := by
  intro w hw
  unfold normalizeNaN at hw
  rw [foldl_nanAdd_of_mem_none p h] at hw
  rcases List.mem_map.mp hw with ⟨x, _, hx⟩
  rw [← hx, nanDiv_none_right]

theorem normalizeNaN_ne_nil (p : List (Option ℚ)) (h : p ≠ []) : normalizeNaN p ≠ [] := by
  unfold normalizeNaN
  simpa using h

/-- C3 counterexample: with 3 data columns, no bias column and
n_nearest_columns = 2 (equal to the per-column predictor count 2), the guard
n_cols - int(add_ones) > n_nearest_columns still fires, so the correlation
path is entered and the fit receives the drawn column order instead of the
plain all-other-columns list. -/
theorem C3_counterexample :
    (allOtherCols 3 0).length = 2 ∧
    subsetActive false 2 3 = true ∧
    selectedCols false 2 (fun j => if j = 2 then 4 else 2)
      (fun pool n _ => (pool.take n).reverse)
      [[0, 0, 0], [0, 0, 0], [2, 2, 4], [2, 2, 4]] 3 0 = [2, 1] ∧
    ([2, 1] : List ℕ) ≠ allOtherCols 3 0 :=
  ⟨by decide, by decide, by rfl, by decide⟩

/-- C3 (amended): the subsetting path is skipped exactly when
n_nearest_columns ≥ n_cols - int(add_ones), i.e. strictly more than the
per-column predictor count; in that case the selected predictors are all
other columns for every square-root and column-draw oracle, so no
correlation information influences the fit.  At n_nearest_columns equal to
the predictor count the path is still entered (see the counterexample). -/
theorem C3_subset_threshold_amended (addOnes : Bool) (nNearest nCols c : ℕ) (sd : ℕ → ℚ)
    (colChoice : List ℕ → ℕ → List (Option ℚ) → List ℕ) (X : Mat)
    (h : nCols - addOnesInt addOnes ≤ nNearest) :
    selectedCols addOnes nNearest sd colChoice X nCols c = allOtherCols nCols c := by
  simp [selectedCols, subsetActive, Nat.not_lt.mpr h]

/-- C3 witness: the amended threshold theorem applied at a concrete
configuration with n_nearest_columns above the column count. -/
theorem C3_subset_threshold_witness :
    selectedCols false 5 (fun _ => 0) (fun pool n _ => pool.take n)
      [[1, 2, 3]] 3 0 = allOtherCols 3 0 :=
  C3_subset_threshold_amended false 5 3 0 _ _ _ (by decide)

/-- C1 (code bug, evaluated at the failing input): with add_ones set,
n_nearest_columns = 1 and a 3-data-column matrix (bias column index 3), the
bias column is excluded from the draw pool, but the final
other_cols = np.append(other_cols, other_cols[:-1]) of the source appends the
sampled columns minus their last element rather than the bias column: the
selected predictor set is [1] and does not contain the bias column 3. -/
theorem C1_bias_column_dropped :
    (allOtherCols 4 0).dropLast = [1, 2] ∧
    selectedCols true 1 (fun j => if j = 2 then 4 else if j = 3 then 0 else 2)
      (fun pool n _ => pool.take n)
      [[0, 0, 0, 1], [0, 0, 0, 1], [2, 2, 4, 1], [2, 2, 4, 1]] 4 0 = [1] ∧
    (3 : ℕ) ∉ ([1] : List ℕ) :=
  ⟨by decide, by rfl, by decide⟩

/-- C5 counterexample: column 2 of the matrix is constant, so its correlation
with column 0 is 0/0 = NaN; the weight vector the source hands to
np.random.choice for column 0 is entirely NaN while the subsetting guard is
active, refuting that the selection never draws with NaN weights. -/
theorem C5_nan_weights_counterexample :
    subsetActive false 2 3 = true ∧
    subsetWeights (fun j => if j = 2 then 0 else 2)
      [[0, 0, 1], [0, 0, 1], [2, 2, 1], [2, 2, 1]] 0 3 false = [none, none] := by
  refine ⟨by decide, ?_⟩
  norm_num [subsetWeights, normalizeNaN, allOtherCols, absCorr, nanDiv, nanAdd,
    covSum, colMean, colVals, entry, List.range_succ, List.range']

/-- C5 (amended): whenever some candidate predictor column j (non-bias,
distinct from the imputed column) has zero variance in the current filled
matrix, the normalized weight vector the source passes to np.random.choice is
nonempty and consists entirely of NaN entries: the source neither restricts
the normalization to finite entries nor raises any error of its own before
the draw. -/
theorem C5_nan_weights_amended (sd : ℕ → ℚ) (X : Mat) (c nCols j : ℕ) (addOnes : Bool)
    (hne : j ≠ c) (hjlt : j < nCols - addOnesInt addOnes)
    (hc : addOnes = true → c < nCols - 1)
    (hvar : covSum X j j = 0) (hsd : sd j * sd j = covSum X j j) :
    subsetWeights sd X c nCols addOnes ≠ [] ∧
    ∀ w ∈ subsetWeights sd X c nCols addOnes, w = none := by
  have hsd0 : sd j = 0 := mul_self_eq_zero.mp (hsd.trans hvar)
  have hcorr : absCorr sd X c j = none := by
    unfold absCorr nanDiv
    simp [hsd0]
  cases addOnes with
  | false =>
    have hj : j ∈ allOtherCols nCols c :=
      mem_allOtherCols hne (by simpa [addOnesInt] using hjlt)
    have hnone : none ∈ (allOtherCols nCols c).map (fun j2 => absCorr sd X c j2) :=
      List.mem_map.mpr ⟨j, hj, hcorr⟩
    exact ⟨normalizeNaN_ne_nil _ (List.ne_nil_of_mem hnone),
      fun w hw => normalizeNaN_all_none _ hnone w hw⟩
  | true =>
    have hclt : c < nCols - 1 := hc rfl
    have hj : j ∈ allOtherCols (nCols - 1) c :=
      mem_allOtherCols hne (by simpa [addOnesInt] using hjlt)
    have hj2 : j ∈ (allOtherCols nCols c).dropLast := by
      rw [dropLast_allOtherCols hclt]; exact hj
    have hnone : none ∈ ((allOtherCols nCols c).map (fun j2 => absCorr sd X c j2)).dropLast := by
      rw [← List.map_dropLast]
      exact List.mem_map.mpr ⟨j, hj2, hcorr⟩
    exact ⟨normalizeNaN_ne_nil _ (List.ne_nil_of_mem hnone),
      fun w hw => normalizeNaN_all_none _ hnone w hw⟩

/-- C5 witness: the amended theorem applied at the concrete zero-variance
matrix of the counterexample. -/
theorem C5_nan_weights_witness :
    subsetWeights (fun j => if j = 2 then 0 else 2)
      [[0, 0, 1], [0, 0, 1], [2, 2, 1], [2, 2, 1]] 0 3 false ≠ [] ∧
    ∀ w ∈ subsetWeights (fun j => if j = 2 then 0 else 2)
      [[0, 0, 1], [0, 0, 1], [2, 2, 1], [2, 2, 1]] 0 3 false, w = none :=
  C5_nan_weights_amended (fun j => if j = 2 then 0 else 2) _ 0 3 2 false
    (by decide) (by decide) (by simp)
    (by norm_num [covSum, colMean, colVals, entry, List.range_succ])
    (by norm_num [covSum, colMean, colVals, entry, List.range_succ])

/- Claim C9: unknown impute_type values leave the round a no-op. -/

theorem imputeColumn_other_noop (cfg : Cfg) (oc : Oracle) (m : Mask) (nCols : ℕ)
    (Xc X : Mat) (c : ℕ) (h1 : cfg.imputeType ≠ "pmm") (h2 : cfg.imputeType ≠ "col") :
    imputeColumn cfg oc m nCols Xc X c = .ok X := by
  unfold imputeColumn
  by_cases h : countMissingIn m c = 0
  · simp [h]
  · simp [h, h1, h2]

/-- C9 (confirmed): when impute_type is neither pmm nor col, one full round
returns the filled matrix unchanged: every column with missing data still has
its model fit consulted by the source, but no cell is written and no error is
raised. -/
theorem C9_unknown_impute_type_noop (cfg : Cfg) (oc : Oracle) (m : Mask) (visit : List ℕ)
    (X : Mat) (h1 : cfg.imputeType ≠ "pmm") (h2 : cfg.imputeType ≠ "col") :
    performImputationRound cfg oc m visit X = .ok X := by
  unfold performImputationRound
  induction visit with
  | nil => rfl
  | cons c cs ih =>
    rw [List.foldlM_cons, imputeColumn_other_noop cfg oc m _ X X c h1 h2]
    exact ih

/-- C9 witness: the no-op round theorem applied at a concrete unknown
impute_type value. -/
theorem C9_unknown_impute_type_witness :
    performImputationRound ⟨"roman", 1, 0, 5, "mode", false, 5⟩
      ⟨fun _ => 0, fun pool n _ => pool.take n, fun _ _ q _ => q.map (fun _ => 0),
        fun _ _ q => q.map (fun _ => (0, 0)), fun _ _ => 0, fun _ _ p => p.1⟩
      [[true, false], [false, false], [false, false]] [0, 1] [[5, 10], [1, 20], [2, 30]] =
      .ok [[5, 10], [1, 20], [2, 30]] :=
  C9_unknown_impute_type_noop _ _ _ _ _ (by decide) (by decide)

/- Claim C10: the PMM neighbor count guard. -/

theorem length_subMat (X : Mat) (rows cols : List ℕ) : (subMat X rows cols).length = rows.length :=
  List.length_map _ _

theorem pmmK_eq (cfg : Cfg) (oc : Oracle) (m : Mask) (nCols : ℕ) (Xc X : Mat) (c : ℕ)
    (hlen : ∀ tr y q b, (oc.predict tr y q b).length = q.length) :
    pmmK cfg oc m nCols Xc X c = min cfg.nPmm ((obsRows m c).length - 1) := by
  unfold pmmK predsObs
  rw [hlen, length_subMat]

theorem imputeColumn_pmm_eq (cfg : Cfg) (oc : Oracle) (m : Mask) (nCols : ℕ)
    (Xc X : Mat) (c : ℕ) (hmiss : countMissingIn m c ≠ 0) (hpmm : cfg.imputeType = "pmm")
    (hk : pmmK cfg oc m nCols Xc X c ≠ 0) :
    imputeColumn cfg oc m nCols Xc X c =
      .ok (writeColAux c X m (pmmNewVals cfg oc m nCols Xc X c)) := by
  unfold imputeColumn
  rw [if_neg hmiss, if_pos hpmm, if_neg hk]

theorem imputeColumn_pmm_ok (cfg : Cfg) (oc : Oracle) (m : Mask) (nCols : ℕ)
    (Xc X : Mat) (c : ℕ) (hpmm : cfg.imputeType = "pmm")
    (hlen : ∀ tr y q b, (oc.predict tr y q b).length = q.length)
    (hnp : 1 ≤ cfg.nPmm)
    (hobs : 0 < countMissingIn m c → 2 ≤ (obsRows m c).length) :
    ∃ Y, imputeColumn cfg oc m nCols Xc X c = .ok Y := by
  by_cases h : countMissingIn m c = 0
  · exact ⟨X, by unfold imputeColumn; rw [if_pos h]⟩
  · have hob : 2 ≤ (obsRows m c).length := hobs (Nat.pos_of_ne_zero h)
    have hk : pmmK cfg oc m nCols Xc X c ≠ 0 := by
      rw [pmmK_eq cfg oc m nCols Xc X c hlen]
      omega
    exact ⟨_, imputeColumn_pmm_eq cfg oc m nCols Xc X c h hpmm hk⟩

theorem imputeColumn_pmm_fail (cfg : Cfg) (oc : Oracle) (m : Mask) (nCols : ℕ)
    (Xc X : Mat) (c : ℕ) (hpmm : cfg.imputeType = "pmm")
    (hlen : ∀ tr y q b, (oc.predict tr y q b).length = q.length)
    (hmiss : 0 < countMissingIn m c) (hobs1 : (obsRows m c).length = 1) :
    imputeColumn cfg oc m nCols Xc X c = .error "a must be non-empty" := by
  unfold imputeColumn
  have h : ¬ countMissingIn m c = 0 := Nat.pos_iff_ne_zero.mp hmiss
  have hk : pmmK cfg oc m nCols Xc X c = 0 := by
    rw [pmmK_eq cfg oc m nCols Xc X c hlen, hobs1]
    simp
  rw [if_neg h, if_pos hpmm, if_pos hk]

/-- C10 (confirmed): under impute_type = pmm with a positive neighbor count
setting, a round whose visited missing-bearing columns all have at least two
observed rows always succeeds (k = min(n_pmm_neighbors, n_observed - 1) is at
least 1 and every neighbor list is nonempty); if some visited column has
missing entries and exactly one observed row (all others having at least
one), k degenerates to 0 and the round aborts with the empty-choice error
instead of imputing a value. -/
theorem foldlM_pmm_ok (cfg : Cfg) (oc : Oracle) (m : Mask) (nCols : ℕ) (Xc : Mat)
    (hpmm : cfg.imputeType = "pmm") (hnp : 1 ≤ cfg.nPmm)
    (hlen : ∀ tr y q b, (oc.predict tr y q b).length = q.length) :
    ∀ (l : List ℕ) (acc : Mat),
      (∀ c ∈ l, 0 < countMissingIn m c → 2 ≤ (obsRows m c).length) →
      ∃ Y, l.foldlM (fun a c => imputeColumn cfg oc m nCols Xc a c) acc = .ok Y := by
  intro l
  induction l with
  | nil => exact fun acc _ => ⟨acc, rfl⟩
  | cons c cs ih =>
    intro acc hall
    obtain ⟨Y1, hY1⟩ := imputeColumn_pmm_ok cfg oc m nCols Xc acc c hpmm hlen hnp
      (hall c (List.mem_cons_self _ _))
    obtain ⟨Y, hY⟩ := ih Y1 (fun c2 hc2 => hall c2 (List.mem_cons_of_mem _ hc2))
    refine ⟨Y, ?_⟩
    rw [List.foldlM_cons, hY1]
    exact hY

theorem foldlM_pmm_fail (cfg : Cfg) (oc : Oracle) (m : Mask) (nCols : ℕ) (Xc : Mat)
    (hpmm : cfg.imputeType = "pmm") (hnp : 1 ≤ cfg.nPmm)
    (hlen : ∀ tr y q b, (oc.predict tr y q b).length = q.length) :
    ∀ (l : List ℕ) (acc : Mat),
      (∀ c ∈ l, 0 < countMissingIn m c → 1 ≤ (obsRows m c).length) →
      (∃ c ∈ l, 0 < countMissingIn m c ∧ (obsRows m c).length = 1) →
      l.foldlM (fun a c => imputeColumn cfg oc m nCols Xc a c) acc =
        .error "a must be non-empty" := by
  intro l
  induction l with
  | nil =>
    rintro acc _ ⟨c, hc, _⟩
    simp at hc
  | cons c cs ih =>
    rintro acc hall ⟨c0, hc0, hc0m, hc0o⟩
    by_cases hm : countMissingIn m c = 0
    · have hstep : imputeColumn cfg oc m nCols Xc acc c = .ok acc := by
        unfold imputeColumn; simp [hm]
      rw [List.foldlM_cons, hstep]
      rcases List.mem_cons.mp hc0 with h | h
      · exact absurd (h ▸ hc0m) (by omega)
      · exact ih acc (fun x hx => hall x (List.mem_cons_of_mem _ hx)) ⟨c0, h, hc0m, hc0o⟩
    · by_cases ho : (obsRows m c).length = 1
      · have hstep := imputeColumn_pmm_fail cfg oc m nCols Xc acc c hpmm hlen
          (Nat.pos_of_ne_zero hm) ho
        rw [List.foldlM_cons, hstep]
        rfl
      · have h1 : 1 ≤ (obsRows m c).length :=
          hall c (List.mem_cons_self _ _) (Nat.pos_of_ne_zero hm)
        obtain ⟨Y1, hY1⟩ := imputeColumn_pmm_ok cfg oc m nCols Xc acc c hpmm hlen hnp
          (fun _ => by omega)
        rw [List.foldlM_cons, hY1]
        rcases List.mem_cons.mp hc0 with h | h
        · exact absurd (h ▸ hc0o) ho
        · exact ih Y1 (fun x hx => hall x (List.mem_cons_of_mem _ hx)) ⟨c0, h, hc0m, hc0o⟩

/-- C10 (confirmed): under impute_type = pmm with a positive neighbor count
setting, a round whose visited missing-bearing columns all have at least two
observed rows always succeeds (k = min(n_pmm_neighbors, n_observed - 1) is at
least 1 and every neighbor list is nonempty); if some visited column has
missing entries and exactly one observed row (all others having at least
one), k degenerates to 0 and the round aborts with the empty-choice error
instead of imputing a value. -/
theorem C10_pmm_neighbor_guard (cfg : Cfg) (oc : Oracle) (m : Mask) (visit : List ℕ)
    (X : Mat) (hpmm : cfg.imputeType = "pmm") (hnp : 1 ≤ cfg.nPmm)
    (hlen : ∀ tr y q b, (oc.predict tr y q b).length = q.length) :
    ((∀ c ∈ visit, 0 < countMissingIn m c → 2 ≤ (obsRows m c).length) →
      ∃ Y, performImputationRound cfg oc m visit X = .ok Y) ∧
    ((∀ c ∈ visit, 0 < countMissingIn m c → 1 ≤ (obsRows m c).length) →
      (∃ c ∈ visit, 0 < countMissingIn m c ∧ (obsRows m c).length = 1) →
      performImputationRound cfg oc m visit X = .error "a must be non-empty") :=
  ⟨fun hall => foldlM_pmm_ok cfg oc m _ X hpmm hnp hlen visit X hall,
   fun hall hex => foldlM_pmm_fail cfg oc m _ X hpmm hnp hlen visit X hall hex⟩

/-- C10 witness: the guard theorem applied at two concrete single-column
inputs, one with two observed rows (round succeeds) and one with a single
observed row (round aborts on the empty neighbor choice). -/
theorem C10_pmm_neighbor_guard_witness :
    (∃ Y, performImputationRound ⟨"roman", 1, 0, 5, "pmm", false, 5⟩
      ⟨fun _ => 0, fun pool n _ => pool.take n, fun _ _ q _ => q.map (fun _ => 0),
        fun _ _ q => q.map (fun _ => (0, 0)), fun _ _ => 0, fun _ _ p => p.1⟩
      [[true], [false], [false]] [0] [[9], [4], [7]] = .ok Y) ∧
    performImputationRound ⟨"roman", 1, 0, 5, "pmm", false, 5⟩
      ⟨fun _ => 0, fun pool n _ => pool.take n, fun _ _ q _ => q.map (fun _ => 0),
        fun _ _ q => q.map (fun _ => (0, 0)), fun _ _ => 0, fun _ _ p => p.1⟩
      [[true], [false]] [0] [[9], [4]] = .error "a must be non-empty" :=
  ⟨(C10_pmm_neighbor_guard _ _ _ _ _ (by decide) (by decide)
      (fun tr y q b => by simp)).1
    (by decide),
   (C10_pmm_neighbor_guard _ _ _ _ _ (by decide) (by decide)
      (fun tr y q b => by simp)).2
    (by decide) ⟨0, by decide, by decide, by decide⟩⟩

/- Pointwise description of writeColAux: cells outside the written column or
   outside the missing rows are untouched; the r-th missing row receives the
   value at its missing ordinal. -/

theorem maskAt_nil (r c : ℕ) : maskAt [] r c = false := by
  simp [maskAt]

theorem maskAt_cons_zero (mrow : List Bool) (mrows : Mask) (c : ℕ) :
    maskAt (mrow :: mrows) 0 c = mrow.getD c false := rfl

theorem maskAt_cons_succ (mrow : List Bool) (mrows : Mask) (r c : ℕ) :
    maskAt (mrow :: mrows) (r + 1) c = maskAt mrows r c := rfl

theorem entry_cons_zero (row : List ℚ) (rows : Mat) (c : ℕ) :
    entry (row :: rows) 0 c = row.getD c 0 := rfl

theorem entry_cons_succ (row : List ℚ) (rows : Mat) (r c : ℕ) :
    entry (row :: rows) (r + 1) c = entry rows r c := rfl

theorem headD_eq_getD {α} (l : List α) (d : α) : l.headD d = l.getD 0 d := by
  cases l <;> rfl

theorem getD_tail {α} (l : List α) (t : ℕ) (d : α) : l.tail.getD t d = l.getD (t + 1) d := by
  cases l <;> simp

theorem getDBool_eq (mrow : List Bool) (c : ℕ) : mrow[c]?.getD false = mrow.getD c false :=
  (List.getD_eq_getElem?_getD mrow c false).symm

theorem writeColAux_length (c : ℕ) :
    ∀ (X : Mat) (m : Mask) (vals : List ℚ), (writeColAux c X m vals).length = X.length := by
  intro X
  induction X with
  | nil => intro m vals; rfl
  | cons row rows ih =>
    intro m vals
    cases m with
    | nil => rfl
    | cons mrow mrows =>
      unfold writeColAux
      by_cases hb : mrow.getD c false
      · rw [if_pos hb]
        simp [ih]
      · rw [if_neg hb]
        simp [ih]

theorem writeColAux_row_length (c : ℕ) :
    ∀ (X : Mat) (m : Mask) (vals : List ℚ) (r : ℕ),
      ((writeColAux c X m vals).getD r []).length = (X.getD r []).length := by
  intro X
  induction X with
  | nil => intro m vals r; rfl
  | cons row rows ih =>
    intro m vals r
    cases m with
    | nil => rfl
    | cons mrow mrows =>
      unfold writeColAux
      by_cases hb : mrow.getD c false
      · rw [if_pos hb]
        cases r with
        | zero => simp
        | succ n => simpa using ih mrows vals.tail n
      · rw [if_neg hb]
        cases r with
        | zero => rfl
        | succ n => simpa using ih mrows vals n

theorem writeColAux_frame (c : ℕ) :
    ∀ (X : Mat) (m : Mask) (vals : List ℚ) (r c2 : ℕ),
      (c2 ≠ c ∨ maskAt m r c = false) →
      entry (writeColAux c X m vals) r c2 = entry X r c2 := by
  intro X
  induction X with
  | nil => intro m vals r c2 _; rfl
  | cons row rows ih =>
    intro m vals r c2 h
    cases m with
    | nil => rfl
    | cons mrow mrows =>
      unfold writeColAux
      by_cases hb : mrow.getD c false
      · rw [if_pos hb]
        cases r with
        | zero =>
          have hc2 : c2 ≠ c := by
            rcases h with h | h
            · exact h
            · rw [maskAt_cons_zero, hb] at h; cases h
          rw [entry_cons_zero, entry_cons_zero, getD_set_ne _ _ _ (Ne.symm hc2)]
        | succ n =>
          rw [entry_cons_succ, entry_cons_succ]
          refine ih mrows vals.tail n c2 ?_
          rcases h with h | h
          · exact Or.inl h
          · rw [maskAt_cons_succ] at h; exact Or.inr h
      · rw [if_neg hb]
        cases r with
        | zero => rfl
        | succ n =>
          rw [entry_cons_succ, entry_cons_succ]
          refine ih mrows vals n c2 ?_
          rcases h with h | h
          · exact Or.inl h
          · rw [maskAt_cons_succ] at h; exact Or.inr h

theorem writeColAux_hit (c : ℕ) :
    ∀ (X : Mat) (m : Mask) (vals : List ℚ) (r : ℕ),
      maskAt m r c = true → r < X.length → c < (X.getD r []).length →
      entry (writeColAux c X m vals) r c = vals.getD (missBefore c m r) (entry X r c) := by
  intro X
  induction X with
  | nil => intro m vals r _ hr _; simp at hr
  | cons row rows ih =>
    intro m vals r hm hr hc
    cases m with
    | nil => rw [maskAt_nil] at hm; cases hm
    | cons mrow mrows =>
      cases r with
      | zero =>
        rw [maskAt_cons_zero] at hm
        have hc0 : c < row.length := hc
        rw [writeColAux, if_pos hm, entry_cons_zero, getD_set_self _ _ _ _ hc0, headD_eq_getD]
        rfl
      | succ n =>
        rw [maskAt_cons_succ] at hm
        have hr2 : n < rows.length := by simpa using hr
        have hc2 : c < (rows.getD n []).length := hc
        by_cases hb : mrow.getD c false
        · rw [writeColAux, if_pos hb, entry_cons_succ, ih mrows vals.tail n hm hr2 hc2,
            getD_tail]
          have hmb : missBefore c (mrow :: mrows) (n + 1) = missBefore c mrows n + 1 := by
            show (if mrow.getD c false then 1 else 0) + missBefore c mrows n =
              missBefore c mrows n + 1
            rw [if_pos hb, Nat.add_comm]
          rw [hmb, entry_cons_succ]
        · rw [writeColAux, if_neg hb, entry_cons_succ, ih mrows vals n hm hr2 hc2]
          have hmb : missBefore c (mrow :: mrows) (n + 1) = missBefore c mrows n := by
            show (if mrow.getD c false then 1 else 0) + missBefore c mrows n =
              missBefore c mrows n
            rw [if_neg hb, Nat.zero_add]
          rw [hmb, entry_cons_succ]

theorem missRows_cons (mrow : List Bool) (mrows : Mask) (c : ℕ) :
    missRows (mrow :: mrows) c =
      (if mrow.getD c false then [0] else []) ++ (missRows mrows c).map Nat.succ := by
  unfold missRows
  rw [List.length_cons, List.range_succ_eq_map, List.filter_cons, List.filter_map]
  have hpred : ((fun r => maskAt (mrow :: mrows) r c) ∘ Nat.succ) =
      (fun r => maskAt mrows r c) := by
    funext r
    simp [Function.comp, maskAt_cons_succ]
  rw [hpred, maskAt_cons_zero]
  by_cases hb : mrow.getD c false
  · rw [if_pos hb, if_pos hb]; rfl
  · rw [if_neg hb, if_neg hb]; rfl

theorem countMissingIn_cons (mrow : List Bool) (mrows : Mask) (c : ℕ) :
    countMissingIn (mrow :: mrows) c =
      (if mrow.getD c false then 1 else 0) + countMissingIn mrows c := by
  unfold countMissingIn
  rw [missRows_cons]
  by_cases hb : mrow.getD c false
  · rw [if_pos hb, if_pos hb]; simp; omega
  · rw [if_neg hb, if_neg hb]; simp

theorem missBefore_lt_count (c : ℕ) :
    ∀ (m : Mask) (r : ℕ), maskAt m r c = true → missBefore c m r < countMissingIn m c := by
  intro m
  induction m with
  | nil =>
    intro r h
    rw [maskAt_nil] at h; cases h
  | cons mrow mrows ih =>
    intro r h
    cases r with
    | zero =>
      rw [maskAt_cons_zero] at h
      rw [countMissingIn_cons, if_pos h]
      have hmb : missBefore c (mrow :: mrows) 0 = 0 := rfl
      omega
    | succ n =>
      rw [maskAt_cons_succ] at h
      have hlt := ih n h
      rw [countMissingIn_cons]
      have hmb : missBefore c (mrow :: mrows) (n + 1) =
          (if mrow.getD c false then 1 else 0) + missBefore c mrows n := rfl
      rw [hmb]
      by_cases hb : mrow.getD c false
      · rw [if_pos hb]; omega
      · rw [if_neg hb]; omega

theorem length_randomDraw (obs : List ℚ) (n : ℕ) (pick : ℕ → ℕ) :
    (randomDraw obs n pick).length = n := by
  simp [randomDraw]

theorem randomDraw_mem (obs : List ℚ) (n : ℕ) (pick : ℕ → ℕ) (hobs : obs ≠ [])
    (v : ℚ) (hv : v ∈ randomDraw obs n pick) : v ∈ obs := by
  unfold randomDraw at hv
  rcases List.mem_map.mp hv with ⟨t, _, ht⟩
  rw [← ht]
  exact getD_mem _ _ _ (Nat.mod_lt _ (List.length_pos.mpr hobs))

theorem observedCol_congr (X Y : Mat) (m : Mask) (c : ℕ)
    (h : ∀ r c2, maskAt m r c2 = false → entry Y r c2 = entry X r c2) :
    observedCol Y m c = observedCol X m c := by
  unfold observedCol
  refine List.map_congr_left ?_
  intro r hr
  rw [obsRows, List.mem_filter] at hr
  exact h r c (by simpa using hr.2)

/- Claim C8: the initializer. -/

theorem maskAt_true_row_lt (m : Mask) (r c : ℕ) (h : maskAt m r c = true) : r < m.length := by
  by_contra hcon
  unfold maskAt at h
  rw [List.getD_eq_getElem?_getD m r, List.getElem?_eq_none (Nat.le_of_not_lt hcon)] at h
  simp at h

theorem initFill_spec (m : Mask) (picks : ℕ → ℕ → ℕ) :
    ∀ (visit : List ℕ) (X : Mat),
      (∀ c ∈ visit, 0 < countMissingIn m c → observedCol X m c ≠ []) →
      (∀ r c2, maskAt m r c2 = false → entry (initFill X m visit picks) r c2 = entry X r c2) ∧
      (∀ r c2, c2 ∉ visit → entry (initFill X m visit picks) r c2 = entry X r c2) ∧
      (∀ c ∈ visit, ∀ r, maskAt m r c = true → r < X.length → c < (X.getD r []).length →
        entry (initFill X m visit picks) r c ∈ observedCol X m c) := by
  intro visit
  induction visit with
  | nil =>
    intro X _
    exact ⟨fun r c2 _ => rfl, fun r c2 _ => rfl, fun c hc => absurd hc (List.not_mem_nil c)⟩
  | cons c cs ih =>
    intro X hobs
    set vals := randomDraw (observedCol X m c) (countMissingIn m c) (picks c) with hvals
    set X1 := if 0 < countMissingIn m c then writeColAux c X m vals else X with hX1
    have key : initFill X m (c :: cs) picks = initFill X1 m cs picks := by
      unfold initFill
      rw [List.foldl_cons]
    have F1 : ∀ r c2, maskAt m r c2 = false → entry X1 r c2 = entry X r c2 := by
      intro r c2 hm2
      rw [hX1]
      by_cases hcnt : 0 < countMissingIn m c
      · rw [if_pos hcnt]
        refine writeColAux_frame c X m vals r c2 ?_
        by_cases hceq : c2 = c
        · subst hceq; exact Or.inr hm2
        · exact Or.inl hceq
      · rw [if_neg hcnt]
    have F2 : ∀ r c2, c2 ≠ c → entry X1 r c2 = entry X r c2 := by
      intro r c2 hne
      rw [hX1]
      by_cases hcnt : 0 < countMissingIn m c
      · rw [if_pos hcnt]
        exact writeColAux_frame c X m vals r c2 (Or.inl hne)
      · rw [if_neg hcnt]
    have Flen : X1.length = X.length := by
      rw [hX1]
      by_cases hcnt : 0 < countMissingIn m c
      · rw [if_pos hcnt]; exact writeColAux_length c X m vals
      · rw [if_neg hcnt]
    have Frow : ∀ r, (X1.getD r []).length = (X.getD r []).length := by
      intro r
      rw [hX1]
      by_cases hcnt : 0 < countMissingIn m c
      · rw [if_pos hcnt]; exact writeColAux_row_length c X m vals r
      · rw [if_neg hcnt]
    have F5 : ∀ c2, observedCol X1 m c2 = observedCol X m c2 :=
      fun c2 => observedCol_congr X X1 m c2 F1
    have F4 : ∀ r, maskAt m r c = true → r < X.length → c < (X.getD r []).length →
        entry X1 r c ∈ observedCol X m c := by
      intro r hm2 hr hc
      have hcnt : 0 < countMissingIn m c := by
        have := missBefore_lt_count c m r hm2
        omega
      rw [hX1, if_pos hcnt, writeColAux_hit c X m vals r hm2 hr hc]
      have hoc : observedCol X m c ≠ [] := hobs c (List.mem_cons_self _ _) hcnt
      have hlt : missBefore c m r < vals.length := by
        rw [hvals, length_randomDraw]
        exact missBefore_lt_count c m r hm2
      exact randomDraw_mem _ _ _ hoc _ (getD_mem _ _ _ hlt)
    have hobs2 : ∀ c2 ∈ cs, 0 < countMissingIn m c2 → observedCol X1 m c2 ≠ [] := by
      intro c2 hc2 hcnt
      rw [F5]
      exact hobs c2 (List.mem_cons_of_mem _ hc2) hcnt
    obtain ⟨ih1, ih2, ih3⟩ := ih X1 hobs2
    rw [key]
    refine ⟨?_, ?_, ?_⟩
    · intro r c2 hm2
      rw [ih1 r c2 hm2, F1 r c2 hm2]
    · intro r c2 hnot
      have hne : c2 ≠ c := fun h => hnot (h ▸ List.mem_cons_self _ _)
      have hncs : c2 ∉ cs := fun h => hnot (List.mem_cons_of_mem _ h)
      rw [ih2 r c2 hncs, F2 r c2 hne]
    · intro c2 hc2 r hm2 hr hc
      rcases List.mem_cons.mp hc2 with hceq | hcs
      · subst hceq
        by_cases hmem : c2 ∈ cs
        · have hres := ih3 c2 hmem r hm2 (by rw [Flen]; exact hr) (by rw [Frow]; exact hc)
          rw [F5] at hres
          exact hres
        · rw [ih2 r c2 hmem]
          exact F4 r hm2 hr hc
      · have hres := ih3 c2 hcs r hm2 (by rw [Flen]; exact hr) (by rw [Frow]; exact hc)
        rw [F5] at hres
        exact hres

/-- C8 (confirmed): for any aligned matrix and mask, the initializer leaves
every non-missing cell unchanged, fills every missing cell of a visited
column with a value from the observed entries of that column at call time,
and leaves every column with zero missing entries untouched. -/
theorem C8_initFill_spec (X : Mat) (m : Mask) (visit : List ℕ) (picks : ℕ → ℕ → ℕ)
    (hal : Aligned X m)
    (hobs : ∀ c ∈ visit, 0 < countMissingIn m c → observedCol X m c ≠ []) :
    (∀ r c, maskAt m r c = false → entry (initFill X m visit picks) r c = entry X r c) ∧
    (∀ c ∈ visit, ∀ r, maskAt m r c = true →
      entry (initFill X m visit picks) r c ∈ observedCol X m c) ∧
    (∀ c, countMissingIn m c = 0 → ∀ r, entry (initFill X m visit picks) r c = entry X r c) := by
  obtain ⟨h1, h2, h3⟩ := initFill_spec m picks visit X hobs
  refine ⟨h1, ?_, ?_⟩
  · intro c hc r hm2
    have hrm : r < m.length := maskAt_true_row_lt m r c hm2
    have hcm : c < (m.getD r []).length := getD_true_lt _ _ hm2
    have hrX : r < X.length := by rw [hal.1]; exact hrm
    have hcX : c < (X.getD r []).length := by rw [hal.2 r hrm]; exact hcm
    exact h3 c hc r hm2 hrX hcX
  · intro c hz r
    by_cases hm2 : maskAt m r c = true
    · have := missBefore_lt_count c m r hm2
      omega
    · exact h1 r c (by simpa using hm2)

/-- C8 witness: the initializer theorem applied at a concrete 3x2 matrix with
one missing cell. -/
theorem C8_initFill_witness :
    (∀ r c, maskAt [[true, false], [false, false], [false, false]] r c = false →
      entry (initFill [[5, 10], [1, 20], [2, 30]]
        [[true, false], [false, false], [false, false]] [0, 1] (fun _ _ => 0)) r c =
      entry [[5, 10], [1, 20], [2, 30]] r c) ∧
    (∀ c ∈ [0, 1], ∀ r,
      maskAt [[true, false], [false, false], [false, false]] r c = true →
      entry (initFill [[5, 10], [1, 20], [2, 30]]
        [[true, false], [false, false], [false, false]] [0, 1] (fun _ _ => 0)) r c ∈
      observedCol [[5, 10], [1, 20], [2, 30]]
        [[true, false], [false, false], [false, false]] c) ∧
    (∀ c, countMissingIn [[true, false], [false, false], [false, false]] c = 0 → ∀ r,
      entry (initFill [[5, 10], [1, 20], [2, 30]]
        [[true, false], [false, false], [false, false]] [0, 1] (fun _ _ => 0)) r c =
      entry [[5, 10], [1, 20], [2, 30]] r c) :=
  C8_initFill_spec _ _ _ _ (by decide)
    (fun c hc _ => List.length_pos.mp (by fin_cases hc <;> simp [observedCol] <;> decide))

/- Claim C6: PMM value provenance. -/

theorem pmmNN_length (key : ℕ → ℚ) (nObs k : ℕ) (hk : k ≤ nObs) :
    (pmmNN key nObs k).length = k := by
  unfold pmmNN
  rw [List.length_take, (argsortAsc_perm key nObs).length_eq, List.length_range]
  omega

theorem pmmNN_mem_lt (key : ℕ → ℚ) (nObs k j : ℕ) (hj : j ∈ pmmNN key nObs k) : j < nObs := by
  unfold pmmNN at hj
  have hj2 : j ∈ argsortAsc key nObs := List.take_subset _ _ hj
  exact List.mem_range.mp ((argsortAsc_perm key nObs).mem_iff.mp hj2)

theorem pmmNN_closest (key : ℕ → ℚ) (nObs k j j2 : ℕ)
    (hj : j ∈ pmmNN key nObs k) (hj2lt : j2 < nObs) (hj2 : j2 ∉ pmmNN key nObs k) :
    key j ≤ key j2 := by
  have hsort2 : (pmmNN key nObs k ++ (argsortAsc key nObs).drop k).Pairwise (keyLe key) := by
    unfold pmmNN
    rw [List.take_append_drop]
    exact argsortAsc_sorted key nObs
  have hj2mem : j2 ∈ pmmNN key nObs k ++ (argsortAsc key nObs).drop k := by
    unfold pmmNN
    rw [List.take_append_drop]
    exact (argsortAsc_perm key nObs).mem_iff.mpr (List.mem_range.mpr hj2lt)
  have hj2drop : j2 ∈ (argsortAsc key nObs).drop k := by
    rcases List.mem_append.mp hj2mem with h | h
    · exact absurd h hj2
    · exact h
  rcases (List.pairwise_append.mp hsort2).2.2 j hj j2 hj2drop with h | ⟨h, _⟩
  · exact le_of_lt h
  · exact le_of_eq h

theorem getD_range_map {α} (f : ℕ → α) (n t : ℕ) (d : α) (ht : t < n) :
    ((List.range n).map f).getD t d = f t := by
  rw [List.getD_eq_getElem?_getD, List.getElem?_map, List.getElem?_range ht]
  rfl

theorem missBefore_eq_filter (c : ℕ) :
    ∀ (m : Mask) (r : ℕ),
      missBefore c m r = ((List.range r).filter (fun i => maskAt m i c)).length := by
  intro m
  induction m with
  | nil =>
    intro r
    have hfalse : ∀ i, maskAt ([] : Mask) i c = false := fun i => maskAt_nil i c
    cases r with
    | zero => rfl
    | succ n =>
      show (0 : ℕ) = _
      simp [hfalse]
  | cons mrow mrows ih =>
    intro r
    cases r with
    | zero => rfl
    | succ n =>
      have hL : missBefore c (mrow :: mrows) (n + 1) =
          (if mrow.getD c false then 1 else 0) + missBefore c mrows n := rfl
      rw [hL, ih n, List.range_succ_eq_map, List.filter_cons, List.filter_map]
      have hpred : ((fun i => maskAt (mrow :: mrows) i c) ∘ Nat.succ) =
          (fun i => maskAt mrows i c) := by
        funext i
        simp [Function.comp, maskAt_cons_succ]
      rw [hpred, maskAt_cons_zero]
      by_cases hb : mrow.getD c false
      · rw [if_pos hb, if_pos hb]
        simp [Nat.add_comm]
      · rw [if_neg hb, if_neg hb]
        simp

theorem filter_range_getD (p : ℕ → Bool) :
    ∀ (n t : ℕ), t < ((List.range n).filter p).length →
      p (((List.range n).filter p).getD t 0) = true ∧
      ((List.range (((List.range n).filter p).getD t 0)).filter p).length = t ∧
      ((List.range n).filter p).getD t 0 < n := by
  intro n
  induction n with
  | zero =>
    intro t ht
    simp at ht
  | succ n ih =>
    intro t ht
    rw [List.range_succ, List.filter_append] at ht ⊢
    by_cases hpn : p n
    · have htail : List.filter p [n] = [n] := by simp [hpn]
      rw [htail] at ht ⊢
      rcases Nat.lt_or_ge t ((List.range n).filter p).length with hlt | hge
      · rw [List.getD_append _ _ _ _ hlt]
        obtain ⟨h1, h2, h3⟩ := ih t hlt
        exact ⟨h1, h2, by omega⟩
      · have hteq : t = ((List.range n).filter p).length := by
          rw [List.length_append] at ht
          simp at ht
          omega
        have hsub : t - ((List.range n).filter p).length = 0 := by omega
        rw [List.getD_append_right _ _ _ _ hge, hsub]
        show p n = true ∧ ((List.range n).filter p).length = t ∧ n < n + 1
        exact ⟨hpn, hteq.symm, by omega⟩
    · have htail : List.filter p [n] = [] := by simp [hpn]
      rw [htail, List.append_nil] at ht ⊢
      obtain ⟨h1, h2, h3⟩ := ih t ht
      exact ⟨h1, h2, by omega⟩

theorem missRows_getD_spec (m : Mask) (c t : ℕ) (ht : t < (missRows m c).length) :
    maskAt m ((missRows m c).getD t 0) c = true ∧
    missBefore c m ((missRows m c).getD t 0) = t ∧
    (missRows m c).getD t 0 < m.length := by
  have h := filter_range_getD (fun r => maskAt m r c) m.length t ht
  exact ⟨h.1, by rw [missBefore_eq_filter]; exact h.2.1, h.2.2⟩

/-- C6 (confirmed): under impute_type = pmm, a successful column update leaves
every observed cell unchanged, uses k = min(n_pmm_neighbors, n_observed - 1)
neighbors, and writes into the t-th missing row of column c the actually
observed value of column c at some index j of the neighbor set, where the
neighbor set consists of k observed rows whose deterministic predictions are
closest to the stochastic prediction of that missing row (final conjunct: the
distance at every selected index is at most the distance at every unselected
index); in particular every imputed value belongs to the observed value set
of the column, never a synthesized prediction. -/
theorem C6_pmm_value_provenance (cfg : Cfg) (oc : Oracle) (m : Mask) (nCols : ℕ)
    (Xc X X2 : Mat) (c : ℕ)
    (hpmm : cfg.imputeType = "pmm")
    (hlen : ∀ tr y q b, (oc.predict tr y q b).length = q.length)
    (hal : Aligned X m)
    (hres : imputeColumn cfg oc m nCols Xc X c = .ok X2) :
    (∀ r c2, maskAt m r c2 = false → entry X2 r c2 = entry X r c2) ∧
    pmmK cfg oc m nCols Xc X c = min cfg.nPmm ((obsRows m c).length - 1) ∧
    ∀ t, t < (missRows m c).length →
      ∃ j, j ∈ pmmNN (pmmKey (predsMiss cfg oc m nCols Xc X c)
              (predsObs cfg oc m nCols Xc X c) t)
            (predsObs cfg oc m nCols Xc X c).length (pmmK cfg oc m nCols Xc X c) ∧
        j < (observedCol X m c).length ∧
        entry X2 ((missRows m c).getD t 0) c = (observedCol X m c).getD j 0 ∧
        entry X2 ((missRows m c).getD t 0) c ∈ observedCol X m c ∧
        ∀ j2, j2 < (observedCol X m c).length →
          j2 ∉ pmmNN (pmmKey (predsMiss cfg oc m nCols Xc X c)
              (predsObs cfg oc m nCols Xc X c) t)
            (predsObs cfg oc m nCols Xc X c).length (pmmK cfg oc m nCols Xc X c) →
          pmmKey (predsMiss cfg oc m nCols Xc X c) (predsObs cfg oc m nCols Xc X c) t j ≤
          pmmKey (predsMiss cfg oc m nCols Xc X c) (predsObs cfg oc m nCols Xc X c) t j2 := by
  by_cases hz : countMissingIn m c = 0
  · have hX2 : X2 = X := by
      unfold imputeColumn at hres
      rw [if_pos hz] at hres
      exact (Except.ok.inj hres).symm
    rw [hX2]
    refine ⟨fun r c2 _ => rfl, pmmK_eq cfg oc m nCols Xc X c hlen, ?_⟩
    intro t ht
    unfold countMissingIn at hz
    omega
  · have hk : pmmK cfg oc m nCols Xc X c ≠ 0 := by
      intro hk0
      unfold imputeColumn at hres
      rw [if_neg hz, if_pos hpmm, if_pos hk0] at hres
      cases hres
    have hX2 : X2 = writeColAux c X m (pmmNewVals cfg oc m nCols Xc X c) := by
      rw [imputeColumn_pmm_eq cfg oc m nCols Xc X c hz hpmm hk] at hres
      exact (Except.ok.inj hres).symm
    rw [hX2]
    have hpoLen : (predsObs cfg oc m nCols Xc X c).length = (obsRows m c).length := by
      unfold predsObs
      rw [hlen, length_subMat]
    have houtLen : (observedCol X m c).length = (obsRows m c).length := by
      unfold observedCol
      rw [List.length_map]
    have hkle : pmmK cfg oc m nCols Xc X c ≤ (predsObs cfg oc m nCols Xc X c).length := by
      have := Nat.min_le_right cfg.nPmm ((predsObs cfg oc m nCols Xc X c).length - 1)
      unfold pmmK
      omega
    refine ⟨?_, pmmK_eq cfg oc m nCols Xc X c hlen, ?_⟩
    · intro r c2 hm2
      apply writeColAux_frame
      by_cases hceq : c2 = c
      · subst hceq
        exact Or.inr hm2
      · exact Or.inl hceq
    · intro t ht
      obtain ⟨hmT, hmbT, hrTm⟩ := missRows_getD_spec m c t ht
      have hrTX : (missRows m c).getD t 0 < X.length := by
        rw [hal.1]
        exact hrTm
      have hcX : c < (X.getD ((missRows m c).getD t 0) []).length := by
        rw [hal.2 _ hrTm]
        exact getD_true_lt _ _ hmT
      have hentry : entry (writeColAux c X m (pmmNewVals cfg oc m nCols Xc X c))
          ((missRows m c).getD t 0) c =
          (pmmNewVals cfg oc m nCols Xc X c).getD t (entry X ((missRows m c).getD t 0) c) := by
        rw [writeColAux_hit c X m _ _ hmT hrTX hcX, hmbT]
      have hnv : (pmmNewVals cfg oc m nCols Xc X c).getD t
            (entry X ((missRows m c).getD t 0) c) =
          (observedCol X m c).getD
            ((pmmNN (pmmKey (predsMiss cfg oc m nCols Xc X c)
                (predsObs cfg oc m nCols Xc X c) t)
              (predsObs cfg oc m nCols Xc X c).length (pmmK cfg oc m nCols Xc X c)).getD
              (oc.nnPick c t %
                (pmmNN (pmmKey (predsMiss cfg oc m nCols Xc X c)
                    (predsObs cfg oc m nCols Xc X c) t)
                  (predsObs cfg oc m nCols Xc X c).length
                  (pmmK cfg oc m nCols Xc X c)).length) 0) 0 := by
        unfold pmmNewVals
        rw [getD_range_map _ _ _ _ ht]
      have hnnlen : (pmmNN (pmmKey (predsMiss cfg oc m nCols Xc X c)
            (predsObs cfg oc m nCols Xc X c) t)
          (predsObs cfg oc m nCols Xc X c).length (pmmK cfg oc m nCols Xc X c)).length =
          pmmK cfg oc m nCols Xc X c := pmmNN_length _ _ _ hkle
      have hnnpos : 0 < (pmmNN (pmmKey (predsMiss cfg oc m nCols Xc X c)
            (predsObs cfg oc m nCols Xc X c) t)
          (predsObs cfg oc m nCols Xc X c).length (pmmK cfg oc m nCols Xc X c)).length := by
        rw [hnnlen]
        omega
      have hjmem : (pmmNN (pmmKey (predsMiss cfg oc m nCols Xc X c)
            (predsObs cfg oc m nCols Xc X c) t)
          (predsObs cfg oc m nCols Xc X c).length (pmmK cfg oc m nCols Xc X c)).getD
            (oc.nnPick c t %
              (pmmNN (pmmKey (predsMiss cfg oc m nCols Xc X c)
                  (predsObs cfg oc m nCols Xc X c) t)
                (predsObs cfg oc m nCols Xc X c).length
                (pmmK cfg oc m nCols Xc X c)).length) 0 ∈
          pmmNN (pmmKey (predsMiss cfg oc m nCols Xc X c)
              (predsObs cfg oc m nCols Xc X c) t)
            (predsObs cfg oc m nCols Xc X c).length (pmmK cfg oc m nCols Xc X c) :=
        getD_mem _ _ _ (Nat.mod_lt _ hnnpos)
      have hjlt := pmmNN_mem_lt _ _ _ _ hjmem
      have hjltOut : (pmmNN (pmmKey (predsMiss cfg oc m nCols Xc X c)
            (predsObs cfg oc m nCols Xc X c) t)
          (predsObs cfg oc m nCols Xc X c).length (pmmK cfg oc m nCols Xc X c)).getD
            (oc.nnPick c t %
              (pmmNN (pmmKey (predsMiss cfg oc m nCols Xc X c)
                  (predsObs cfg oc m nCols Xc X c) t)
                (predsObs cfg oc m nCols Xc X c).length
                (pmmK cfg oc m nCols Xc X c)).length) 0 <
          (observedCol X m c).length := by
        rw [houtLen, ← hpoLen]
        exact hjlt
      refine ⟨_, hjmem, hjltOut, ?_, ?_, ?_⟩
      · rw [hentry, hnv]
      · rw [hentry, hnv]
        exact getD_mem _ _ _ hjltOut
      · intro j2 hj2lt hj2nin
        refine pmmNN_closest _ _ _ _ _ hjmem ?_ hj2nin
        rw [hpoLen]
        rw [houtLen] at hj2lt
        exact hj2lt

/-- Concrete configuration for the C6 witness. -/
def cfgW6 : Cfg := ⟨"roman", 1, 0, 5, "pmm", false, 5⟩

/-- Concrete oracle for the C6 witness. -/
def ocW6 : Oracle :=
  ⟨fun _ => 0, fun pool n _ => pool.take n, fun _ _ q _ => q.map (fun _ => 0),
    fun _ _ q => q.map (fun _ => (0, 0)), fun _ _ => 0, fun _ _ p => p.1⟩

/-- Concrete matrix for the C6 witness. -/
def XW6 : Mat := [[5, 10], [1, 20], [2, 30]]

/-- Concrete mask for the C6 witness: one missing cell in column 0. -/
def mW6 : Mask := [[true, false], [false, false], [false, false]]

/-- Result of the witnessed PMM column update. -/
def X2W6 : Mat := writeColAux 0 XW6 mW6 (pmmNewVals cfgW6 ocW6 mW6 2 XW6 XW6 0)

/-- C6 witness: the PMM provenance theorem applied at a concrete 3x2 matrix
with one missing cell in column 0 and two observed rows. -/
theorem C6_pmm_value_provenance_witness :
    (∀ r c2, maskAt mW6 r c2 = false → entry X2W6 r c2 = entry XW6 r c2) ∧
    pmmK cfgW6 ocW6 mW6 2 XW6 XW6 0 = min cfgW6.nPmm ((obsRows mW6 0).length - 1) ∧
    ∀ t, t < (missRows mW6 0).length →
      ∃ j, j ∈ pmmNN (pmmKey (predsMiss cfgW6 ocW6 mW6 2 XW6 XW6 0)
              (predsObs cfgW6 ocW6 mW6 2 XW6 XW6 0) t)
            (predsObs cfgW6 ocW6 mW6 2 XW6 XW6 0).length (pmmK cfgW6 ocW6 mW6 2 XW6 XW6 0) ∧
        j < (observedCol XW6 mW6 0).length ∧
        entry X2W6 ((missRows mW6 0).getD t 0) 0 = (observedCol XW6 mW6 0).getD j 0 ∧
        entry X2W6 ((missRows mW6 0).getD t 0) 0 ∈ observedCol XW6 mW6 0 ∧
        ∀ j2, j2 < (observedCol XW6 mW6 0).length →
          j2 ∉ pmmNN (pmmKey (predsMiss cfgW6 ocW6 mW6 2 XW6 XW6 0)
              (predsObs cfgW6 ocW6 mW6 2 XW6 XW6 0) t)
            (predsObs cfgW6 ocW6 mW6 2 XW6 XW6 0).length (pmmK cfgW6 ocW6 mW6 2 XW6 XW6 0) →
          pmmKey (predsMiss cfgW6 ocW6 mW6 2 XW6 XW6 0)
            (predsObs cfgW6 ocW6 mW6 2 XW6 XW6 0) t j ≤
          pmmKey (predsMiss cfgW6 ocW6 mW6 2 XW6 XW6 0)
            (predsObs cfgW6 ocW6 mW6 2 XW6 XW6 0) t j2 := by
  have hlenW : ∀ tr y q b, (ocW6.predict tr y q b).length = q.length := by
    intro tr y q b
    show (q.map fun _ => (0 : ℚ)).length = q.length
    simp
  refine C6_pmm_value_provenance cfgW6 ocW6 mW6 2 XW6 XW6 X2W6 0 rfl hlenW (by decide) ?_
  refine imputeColumn_pmm_eq cfgW6 ocW6 mW6 2 XW6 XW6 0 (by decide) rfl ?_
  rw [pmmK_eq cfgW6 ocW6 mW6 2 XW6 XW6 0 hlenW]
  decide

/- Claims C7 and C2: the multiple-imputation driver and complete. -/

theorem aligned_cons (row : List ℚ) (rows : Mat) (mrow : List Bool) (mrows : Mask)
    (h : Aligned (row :: rows) (mrow :: mrows)) :
    row.length = mrow.length ∧ Aligned rows mrows := by
  obtain ⟨h1, h2⟩ := h
  refine ⟨h2 0 (by simp), by simpa using h1, ?_⟩
  intro i hi
  have := h2 (i + 1) (by simpa using hi)
  simpa using this

theorem getD_row_map {α β} (g : List α → List β) (L : List (List α)) (i : ℕ)
    (hi : i < L.length) : (L.map g).getD i [] = g (L.getD i []) := by
  rw [List.getD_eq_getElem?_getD, List.getElem?_map, List.getElem?_eq_getElem hi]
  simp [List.getD_eq_getElem?_getD, List.getElem?_eq_getElem hi]

theorem aligned_stripNaN (Xin : OMat) : Aligned (stripNaN Xin) (missingMaskOf Xin) := by
  unfold stripNaN missingMaskOf
  constructor
  · simp
  · intro i hi
    have hi2 : i < Xin.length := by simpa using hi
    rw [getD_row_map _ _ _ hi2, getD_row_map _ _ _ hi2]
    simp

theorem aligned_addOnes (X : Mat) (m : Mask) (h : Aligned X m) :
    Aligned (addOnesCol X) (addMaskCol m) := by
  unfold addOnesCol addMaskCol
  constructor
  · simp [h.1]
  · intro i hi
    have him : i < m.length := by simpa using hi
    have hiX : i < X.length := by rw [h.1]; exact him
    rw [getD_row_map _ _ _ hiX, getD_row_map _ _ _ him, List.length_append,
      List.length_append, h.2 i him]
    rfl

theorem addMaskCol_dropLast (m : Mask) : (addMaskCol m).map List.dropLast = m := by
  unfold addMaskCol
  rw [List.map_map]
  have hco : (List.dropLast ∘ fun row => row ++ [false]) = (id : List Bool → List Bool) := by
    funext row
    simp
  rw [hco, List.map_id]

theorem countTrues_addMaskCol (m : Mask) : countTrues (addMaskCol m) = countTrues m := by
  unfold countTrues addMaskCol
  rw [List.map_map]
  congr 1
  apply List.map_congr_left
  intro row _
  simp

theorem maskedRow_length (row : List ℚ) :
    ∀ (mrow : List Bool), row.length = mrow.length →
      ((row.zip mrow).filterMap (fun vb => if vb.2 then some vb.1 else none)).length =
        mrow.count true := by
  induction row with
  | nil =>
    intro mrow h
    cases mrow with
    | nil => rfl
    | cons b bs => simp at h
  | cons x xs ih =>
    intro mrow h
    cases mrow with
    | nil => simp at h
    | cons b bs =>
      have h2 : xs.length = bs.length := by simpa using h
      cases b
      · simpa using ih bs h2
      · simpa using ih bs h2

theorem maskedEntries_length : ∀ (X : Mat) (m : Mask), Aligned X m →
    (maskedEntries X m).length = countTrues m := by
  intro X
  induction X with
  | nil =>
    intro m hal
    have hm : m = [] := List.length_eq_zero.mp hal.1.symm
    rw [hm]
    rfl
  | cons row rows ih =>
    intro m hal
    cases m with
    | nil => simp [Aligned] at hal
    | cons mrow mrows =>
      obtain ⟨hrow, hrest⟩ := aligned_cons row rows mrow mrows hal
      show (((row.zip mrow).filterMap (fun vb => if vb.2 then some vb.1 else none)) ++
        maskedEntries rows mrows).length = _
      rw [List.length_append, maskedRow_length row mrow hrow, ih mrows hrest]
      show _ = mrow.count true + countTrues mrows
      rfl

theorem imputeColumn_ok_shape (cfg : Cfg) (oc : Oracle) (m : Mask) (nCols : ℕ)
    (Xc X X2 : Mat) (c : ℕ) (h : imputeColumn cfg oc m nCols Xc X c = .ok X2) :
    X2.length = X.length ∧ ∀ r, (X2.getD r []).length = (X.getD r []).length := by
  unfold imputeColumn at h
  by_cases h1 : countMissingIn m c = 0
  · rw [if_pos h1] at h
    rw [← Except.ok.inj h]
    exact ⟨rfl, fun r => rfl⟩
  · rw [if_neg h1] at h
    by_cases h2 : cfg.imputeType = "pmm"
    · rw [if_pos h2] at h
      by_cases h3 : pmmK cfg oc m nCols Xc X c = 0
      · rw [if_pos h3] at h
        cases h
      · rw [if_neg h3] at h
        rw [← Except.ok.inj h]
        exact ⟨writeColAux_length _ _ _ _, fun r => writeColAux_row_length _ _ _ _ r⟩
    · rw [if_neg h2] at h
      by_cases h4 : cfg.imputeType = "col"
      · rw [if_pos h4] at h
        rw [← Except.ok.inj h]
        exact ⟨writeColAux_length _ _ _ _, fun r => writeColAux_row_length _ _ _ _ r⟩
      · rw [if_neg h4] at h
        rw [← Except.ok.inj h]
        exact ⟨rfl, fun r => rfl⟩

theorem foldlM_ok_shape (cfg : Cfg) (oc : Oracle) (m : Mask) (nCols : ℕ) (Xc : Mat) :
    ∀ (l : List ℕ) (X X2 : Mat),
      l.foldlM (fun a c => imputeColumn cfg oc m nCols Xc a c) X = .ok X2 →
      X2.length = X.length ∧ ∀ r, (X2.getD r []).length = (X.getD r []).length := by
  intro l
  induction l with
  | nil =>
    intro X X2 h
    rw [← Except.ok.inj h]
    exact ⟨rfl, fun r => rfl⟩
  | cons c cs ih =>
    intro X X2 h
    rw [List.foldlM_cons] at h
    cases hstep : imputeColumn cfg oc m nCols Xc X c with
    | error e =>
      rw [hstep] at h
      exact Except.noConfusion h
    | ok X1 =>
      rw [hstep] at h
      have h2 : cs.foldlM (fun a c => imputeColumn cfg oc m nCols Xc a c) X1 = .ok X2 := h
      obtain ⟨ha, hb⟩ := imputeColumn_ok_shape cfg oc m nCols Xc X X1 c hstep
      obtain ⟨hc, hd⟩ := ih X1 X2 h2
      exact ⟨hc.trans ha, fun r => (hd r).trans (hb r)⟩

theorem performImputationRound_ok_shape (cfg : Cfg) (oc : Oracle) (m : Mask)
    (visit : List ℕ) (X X2 : Mat)
    (h : performImputationRound cfg oc m visit X = .ok X2) :
    X2.length = X.length ∧ ∀ r, (X2.getD r []).length = (X.getD r []).length :=
  foldlM_ok_shape cfg oc m _ X visit X X2 h

theorem aligned_of_shape (X X2 : Mat) (m : Mask) (hal : Aligned X m)
    (h1 : X2.length = X.length) (h2 : ∀ r, (X2.getD r []).length = (X.getD r []).length) :
    Aligned X2 m :=
  ⟨h1.trans hal.1, fun i hi => (h2 i).trans (hal.2 i hi)⟩

theorem runRounds_length (cfg : Cfg) (ors : ℕ → Oracle) (m : Mask) (visit : List ℕ) :
    ∀ (l : List ℕ) (X : Mat) (acc res : List (List ℚ)) (Xf : Mat),
      runRounds cfg ors m visit l X acc = .ok (res, Xf) →
      res.length = acc.length + (l.filter (fun r => decide (cfg.nBurnIn ≤ r))).length := by
  intro l
  induction l with
  | nil =>
    intro X acc res Xf h
    unfold runRounds at h
    injection Except.ok.inj h with h1 h2
    rw [← h1]
    simp
  | cons r rs ih =>
    intro X acc res Xf h
    unfold runRounds at h
    cases hstep : performImputationRound cfg (ors r) m visit X with
    | error e =>
      rw [hstep] at h
      exact Except.noConfusion h
    | ok X2 =>
      rw [hstep] at h
      have h2 : runRounds cfg ors m visit rs X2
          (if cfg.nBurnIn ≤ r then acc ++ [maskedEntries X2 m] else acc) = .ok (res, Xf) := h
      rw [List.filter_cons]
      by_cases hbr : cfg.nBurnIn ≤ r
      · rw [if_pos hbr] at h2
        have := ih X2 (acc ++ [maskedEntries X2 m]) res Xf h2
        rw [if_pos (by simpa using hbr)]
        simp at this ⊢
        omega
      · rw [if_neg hbr] at h2
        have := ih X2 acc res Xf h2
        rw [if_neg (by simpa using hbr)]
        exact this

theorem runRounds_samples (cfg : Cfg) (ors : ℕ → Oracle) (m : Mask) (visit : List ℕ) :
    ∀ (l : List ℕ) (X : Mat) (acc res : List (List ℚ)) (Xf : Mat),
      runRounds cfg ors m visit l X acc = .ok (res, Xf) →
      Aligned X m →
      ∀ s ∈ res, s ∈ acc ∨ s.length = countTrues m := by
  intro l
  induction l with
  | nil =>
    intro X acc res Xf h _ s hs
    unfold runRounds at h
    injection Except.ok.inj h with h1 h2
    rw [← h1] at hs
    exact Or.inl hs
  | cons r rs ih =>
    intro X acc res Xf h hal s hs
    unfold runRounds at h
    cases hstep : performImputationRound cfg (ors r) m visit X with
    | error e =>
      rw [hstep] at h
      exact Except.noConfusion h
    | ok X2 =>
      rw [hstep] at h
      have h2 : runRounds cfg ors m visit rs X2
          (if cfg.nBurnIn ≤ r then acc ++ [maskedEntries X2 m] else acc) = .ok (res, Xf) := h
      obtain ⟨hsl, hsr⟩ := performImputationRound_ok_shape cfg (ors r) m visit X X2 hstep
      have hal2 : Aligned X2 m := aligned_of_shape X X2 m hal hsl hsr
      by_cases hbr : cfg.nBurnIn ≤ r
      · rw [if_pos hbr] at h2
        rcases ih X2 (acc ++ [maskedEntries X2 m]) res Xf h2 hal2 s hs with hmem | hlen
        · rcases List.mem_append.mp hmem with h1 | h1
          · exact Or.inl h1
          · have hseq : s = maskedEntries X2 m := by simpa using h1
            rw [hseq]
            exact Or.inr (maskedEntries_length X2 m hal2)
        · exact Or.inr hlen
      · rw [if_neg hbr] at h2
        exact ih X2 acc res Xf h2 hal2 s hs

theorem filter_range_burnIn (a b : ℕ) :
    ((List.range (a + b)).filter (fun r => decide (a ≤ r))).length = b := by
  induction b with
  | zero =>
    rw [Nat.add_zero]
    have hnone : ∀ r ∈ List.range a, ¬ (decide (a ≤ r) = true) := by
      intro r hr
      rw [List.mem_range] at hr
      simp
      omega
    rw [List.filter_eq_nil_iff.mpr hnone]
    rfl
  | succ n ihn =>
    rw [Nat.add_succ, List.range_succ, List.filter_append]
    have hone : List.filter (fun r => decide (a ≤ r)) [a + n] = [a + n] := by
      simp
    rw [hone, List.length_append, ihn]
    simp

theorem initFill_shape (m : Mask) (picks : ℕ → ℕ → ℕ) :
    ∀ (visit : List ℕ) (X : Mat),
      (initFill X m visit picks).length = X.length ∧
      ∀ r, ((initFill X m visit picks).getD r []).length = (X.getD r []).length := by
  intro visit
  induction visit with
  | nil => exact fun X => ⟨rfl, fun r => rfl⟩
  | cons c cs ih =>
    intro X
    have key : initFill X m (c :: cs) picks =
        initFill (if 0 < countMissingIn m c then
          writeColAux c X m
            (randomDraw (observedCol X m c) (countMissingIn m c) (picks c))
        else X) m cs picks := by
      unfold initFill
      rw [List.foldl_cons]
    rw [key]
    obtain ⟨iha, ihb⟩ := ih (if 0 < countMissingIn m c then
      writeColAux c X m (randomDraw (observedCol X m c) (countMissingIn m c) (picks c)) else X)
    by_cases hcnt : 0 < countMissingIn m c
    · rw [if_pos hcnt] at iha ihb ⊢
      exact ⟨iha.trans (writeColAux_length _ _ _ _),
        fun r => (ihb r).trans (writeColAux_row_length _ _ _ _ r)⟩
    · rw [if_neg hcnt] at iha ihb ⊢
      exact ⟨iha, ihb⟩

theorem mi_leaf_spec (cfg : Cfg) (ors : ℕ → Oracle) (initPicks : ℕ → ℕ → ℕ)
    (mask1 : Mask) (X1 : Mat) (visit : List ℕ) (res2 : List (List ℚ) × Mat)
    (hr : runRounds cfg ors mask1 visit (List.range (cfg.nBurnIn + cfg.nImputations))
      (initFill X1 mask1 visit initPicks) [] = .ok res2)
    (halX1 : Aligned X1 mask1) :
    res2.1.length = cfg.nImputations ∧ ∀ s ∈ res2.1, s.length = countTrues mask1 := by
  obtain ⟨ha, hb⟩ := initFill_shape mask1 initPicks visit X1
  have halXf : Aligned (initFill X1 mask1 visit initPicks) mask1 :=
    aligned_of_shape _ _ _ halX1 ha hb
  have hr2 : runRounds cfg ors mask1 visit (List.range (cfg.nBurnIn + cfg.nImputations))
      (initFill X1 mask1 visit initPicks) [] = .ok (res2.1, res2.2) := hr
  constructor
  · rw [runRounds_length cfg ors mask1 visit _ _ [] res2.1 res2.2 hr2, filter_range_burnIn]
    simp
  · intro s hs
    rcases runRounds_samples cfg ors mask1 visit _ _ [] res2.1 res2.2 hr2 halXf s hs
      with hmem | hlen
    · exact absurd hmem (List.not_mem_nil s)
    · exact hlen

theorem multipleImputations_ok_spec (cfg : Cfg) (ors : ℕ → Oracle)
    (initPicks : ℕ → ℕ → ℕ) (Xin : OMat) (res : List (List ℚ)) (maskOut : Mask)
    (h : multipleImputations cfg ors initPicks Xin = .ok (res, maskOut)) :
    res.length = cfg.nImputations ∧
    (∀ s ∈ res, s.length = countTrues (missingMaskOf Xin)) ∧
    maskOut = missingMaskOf Xin := by
  unfold multipleImputations at h
  split at h
  · -- add_ones branch
    replace h :
        (match getVisitIndices cfg.visitSeq (missingMaskOf Xin) with
          | Except.error e => (Except.error e : Except String (List (List ℚ) × Mask))
          | Except.ok visit =>
            match runRounds cfg ors (addMaskCol (missingMaskOf Xin)) visit
                (List.range (cfg.nBurnIn + cfg.nImputations))
                (initFill (addOnesCol (stripNaN Xin)) (addMaskCol (missingMaskOf Xin))
                  visit initPicks) [] with
            | Except.error e => Except.error e
            | Except.ok res2 =>
              Except.ok (res2.1, List.map List.dropLast (addMaskCol (missingMaskOf Xin)))) =
          Except.ok (res, maskOut) := h
    split at h
    · exact Except.noConfusion h
    · split at h
      · exact Except.noConfusion h
      · rename_i res2 hr
        injection Except.ok.inj h with h1 h2
        obtain ⟨hl, hs⟩ := mi_leaf_spec cfg ors initPicks
          (addMaskCol (missingMaskOf Xin)) (addOnesCol (stripNaN Xin)) _ res2 hr
          (aligned_addOnes _ _ (aligned_stripNaN Xin))
        refine ⟨by rw [← h1]; exact hl, ?_, ?_⟩
        · intro s hmem
          rw [← h1] at hmem
          rw [hs s hmem, countTrues_addMaskCol]
        · rw [← h2, addMaskCol_dropLast]
  · -- no bias column branch
    replace h :
        (match getVisitIndices cfg.visitSeq (missingMaskOf Xin) with
          | Except.error e => (Except.error e : Except String (List (List ℚ) × Mask))
          | Except.ok visit =>
            match runRounds cfg ors (missingMaskOf Xin) visit
                (List.range (cfg.nBurnIn + cfg.nImputations))
                (initFill (stripNaN Xin) (missingMaskOf Xin) visit initPicks) [] with
            | Except.error e => Except.error e
            | Except.ok res2 =>
              Except.ok (res2.1, missingMaskOf Xin)) =
          Except.ok (res, maskOut) := h
    split at h
    · exact Except.noConfusion h
    · split at h
      · exact Except.noConfusion h
      · rename_i res2 hr
        injection Except.ok.inj h with h1 h2
        obtain ⟨hl, hs⟩ := mi_leaf_spec cfg ors initPicks
          (missingMaskOf Xin) (stripNaN Xin) _ res2 hr (aligned_stripNaN Xin)
        refine ⟨by rw [← h1]; exact hl, ?_, ?_⟩
        · intro s hmem
          rw [← h1] at hmem
          exact hs s hmem
        · rw [← h2]

/-- C7 (confirmed): a successful multiple_imputations call returns exactly
n_imputations samples, each a flat array whose length equals the number of
missing cells of the input (the samples are the row-major masked entries of
the filled matrix, so their positional order is the row-major order of the
mask), and the returned mask is exactly the missing mask of the original
input with the synthetic bias column stripped. -/
theorem C7_sample_collection_shape (cfg : Cfg) (ors : ℕ → Oracle)
    (initPicks : ℕ → ℕ → ℕ) (Xin : OMat) (res : List (List ℚ)) (maskOut : Mask)
    (h : multipleImputations cfg ors initPicks Xin = .ok (res, maskOut)) :
    res.length = cfg.nImputations ∧
    (∀ s ∈ res, s.length = countTrues (missingMaskOf Xin)) ∧
    maskOut = missingMaskOf Xin :=
  multipleImputations_ok_spec cfg ors initPicks Xin res maskOut h

/-- C7 witness: the shape theorem applied at a concrete successful run with
add_ones, one missing cell, one burn-in round and two imputations. -/
theorem C7_sample_collection_witness :
    ([[0], [0]] : List (List ℚ)).length = 2 ∧
    (∀ s ∈ ([[0], [0]] : List (List ℚ)),
      s.length = countTrues (missingMaskOf [[some 1, none], [some 2, some 3]])) ∧
    ([[false, true], [false, false]] : Mask) =
      missingMaskOf [[some 1, none], [some 2, some 3]] :=
  C7_sample_collection_shape ⟨"roman", 2, 1, 5, "col", true, 5⟩
    (fun _ => ⟨fun _ => 0, fun pool n _ => pool.take n, fun _ _ q _ => q.map (fun _ => 0),
      fun _ _ q => q.map (fun _ => (0, 0)), fun _ _ => 0, fun _ _ p => p.1⟩)
    (fun _ _ => 0) [[some 1, none], [some 2, some 3]] [[0], [0]]
    [[false, true], [false, false]] (by rfl)

/- Claim C2: zero imputations. -/

theorem entryO_cons_zero (row : List (Option ℚ)) (rows : OMat) (c : ℕ) :
    entryO (row :: rows) 0 c = row.getD c none := rfl

theorem entryO_cons_succ (row : List (Option ℚ)) (rows : OMat) (r c : ℕ) :
    entryO (row :: rows) (r + 1) c = entryO rows r c := rfl

theorem writeRowMasked_all_none :
    ∀ (row : List (Option ℚ)) (mrow : List Bool) (vals : List (Option ℚ)),
      (∀ v ∈ vals, v = none) →
      (∀ c, mrow.getD c false = true → (writeRowMasked row mrow vals).1.getD c none = none) ∧
      (∀ v ∈ (writeRowMasked row mrow vals).2, v = none) := by
  intro row
  induction row with
  | nil =>
    intro mrow vals hv
    exact ⟨fun c _ => by simp [writeRowMasked], fun v hvv => hv v hvv⟩
  | cons x xs ih =>
    intro mrow vals hv
    cases mrow with
    | nil =>
      refine ⟨fun c hc => ?_, fun v hvv => hv v hvv⟩
      simp at hc
    | cons b bs =>
      have hvt : ∀ v ∈ vals.tail, v = none := by
        intro v hvv
        cases vals with
        | nil => simp at hvv
        | cons w ws => exact hv v (List.mem_cons_of_mem w hvv)
      cases b
      · obtain ⟨ihc, ihv⟩ := ih bs vals hv
        refine ⟨fun c hc => ?_, ?_⟩
        · cases c with
          | zero => cases hc
          | succ n =>
            show ((writeRowMasked xs bs vals).1.getD n none) = none
            exact ihc n hc
        · show ∀ v ∈ (writeRowMasked xs bs vals).2, v = none
          exact ihv
      · obtain ⟨ihc, ihv⟩ := ih bs vals.tail hvt
        refine ⟨fun c hc => ?_, ?_⟩
        · cases c with
          | zero =>
            show (vals.headD none) = none
            cases vals with
            | nil => rfl
            | cons w ws => exact hv w (List.mem_cons_self w ws)
          | succ n =>
            show ((writeRowMasked xs bs vals.tail).1.getD n none) = none
            exact ihc n hc
        · show ∀ v ∈ (writeRowMasked xs bs vals.tail).2, v = none
          exact ihv

theorem writeMaskedRows_all_none :
    ∀ (Xr : OMat) (m : Mask) (vals : List (Option ℚ)),
      (∀ v ∈ vals, v = none) →
      ∀ r c, maskAt m r c = true → entryO (writeMaskedRows Xr m vals) r c = none := by
  intro Xr
  induction Xr with
  | nil =>
    intro m vals _ r c _
    show (([] : OMat).getD r []).getD c none = none
    simp
  | cons row rows ih =>
    intro m vals hv r c hc
    cases m with
    | nil =>
      rw [maskAt_nil] at hc
      cases hc
    | cons mrow mrows =>
      obtain ⟨hrow, htail⟩ := writeRowMasked_all_none row mrow vals hv
      cases r with
      | zero =>
        rw [maskAt_cons_zero] at hc
        show ((writeRowMasked row mrow vals).1).getD c none = none
        exact hrow c hc
      | succ n =>
        rw [maskAt_cons_succ] at hc
        show entryO (writeMaskedRows rows mrows (writeRowMasked row mrow vals).2) n c = none
        exact ih mrows _ htail n c hc

/-- C2 counterexample: at a 2x2 input with one missing cell, n_imputations = 0
and n_burn_in = 1, multiple_imputations succeeds with an empty sample
collection and complete returns the input with NaN (the float mean of zero
samples) written into the missing position, raising no error of any kind. -/
theorem C2_counterexample :
    multipleImputations ⟨"roman", 0, 1, 5, "col", false, 5⟩
      (fun _ => ⟨fun _ => 0, fun pool n _ => pool.take n, fun _ _ q _ => q.map (fun _ => 0),
        fun _ _ q => q.map (fun _ => (0, 0)), fun _ _ => 0, fun _ _ p => p.1⟩)
      (fun _ _ => 0) [[some 1, none], [some 2, some 3]] =
      .ok ([], [[false, true], [false, false]]) ∧
    complete ⟨"roman", 0, 1, 5, "col", false, 5⟩
      (fun _ => ⟨fun _ => 0, fun pool n _ => pool.take n, fun _ _ q _ => q.map (fun _ => 0),
        fun _ _ q => q.map (fun _ => (0, 0)), fun _ _ => 0, fun _ _ p => p.1⟩)
      (fun _ _ => 0) [[some 1, none], [some 2, some 3]] =
      .ok [[some 1, none], [some 2, some 3]] :=
  ⟨rfl, rfl⟩

/-- C2 (amended): with n_imputations = 0, a successful multiple_imputations
call returns an empty sample collection (that part of the claim holds), but
complete raises no InsufficientData error: it succeeds and the mean of the
empty collection (float NaN, broadcast by numpy) is written into every
missing position of the returned matrix. -/
theorem C2_zero_imputations_amended (cfg : Cfg) (ors : ℕ → Oracle)
    (initPicks : ℕ → ℕ → ℕ) (Xin : OMat) (res : List (List ℚ)) (maskOut : Mask)
    (hzero : cfg.nImputations = 0)
    (h : multipleImputations cfg ors initPicks Xin = .ok (res, maskOut)) :
    res = [] ∧
    complete cfg ors initPicks Xin =
      .ok (writeMaskedRows Xin maskOut (meanAxis0 res (countTrues maskOut))) ∧
    ∀ r c, maskAt maskOut r c = true →
      entryO (writeMaskedRows Xin maskOut (meanAxis0 res (countTrues maskOut))) r c = none := by
  obtain ⟨hlen, _, _⟩ := multipleImputations_ok_spec cfg ors initPicks Xin res maskOut h
  have hres : res = [] := by
    rw [hzero] at hlen
    exact List.eq_nil_of_length_eq_zero hlen
  refine ⟨hres, ?_, ?_⟩
  · unfold complete
    rw [h]
  · have hmean : ∀ v ∈ meanAxis0 res (countTrues maskOut), v = none := by
      rw [hres]
      intro v hvv
      exact List.eq_of_mem_replicate hvv
    exact writeMaskedRows_all_none Xin maskOut _ hmean

/-- C2 witness: the amended theorem applied at the concrete run of the
counterexample. -/
theorem C2_zero_imputations_witness :
    ([] : List (List ℚ)) = [] ∧
    complete ⟨"roman", 0, 1, 5, "col", false, 5⟩
      (fun _ => ⟨fun _ => 0, fun pool n _ => pool.take n, fun _ _ q _ => q.map (fun _ => 0),
        fun _ _ q => q.map (fun _ => (0, 0)), fun _ _ => 0, fun _ _ p => p.1⟩)
      (fun _ _ => 0) [[some 1, none], [some 2, some 3]] =
      .ok (writeMaskedRows [[some 1, none], [some 2, some 3]]
        [[false, true], [false, false]]
        (meanAxis0 [] (countTrues [[false, true], [false, false]]))) ∧
    ∀ r c, maskAt [[false, true], [false, false]] r c = true →
      entryO (writeMaskedRows [[some 1, none], [some 2, some 3]]
        [[false, true], [false, false]]
        (meanAxis0 [] (countTrues [[false, true], [false, false]]))) r c = none :=
  C2_zero_imputations_amended ⟨"roman", 0, 1, 5, "col", false, 5⟩
    (fun _ => ⟨fun _ => 0, fun pool n _ => pool.take n, fun _ _ q _ => q.map (fun _ => 0),
      fun _ _ q => q.map (fun _ => (0, 0)), fun _ _ => 0, fun _ _ p => p.1⟩)
    (fun _ _ => 0) [[some 1, none], [some 2, some 3]] [] [[false, true], [false, false]]
    rfl (by rfl)

end MICE
